import Mathlib

/-!
# gr-nordic: ShockBurst packet codec and transmit multiplexer

A shallow embedding of `lib/shockburst_packet.{h,cc}` and `lib/nordic_tx_impl.cc`.

* `uint8_t`, `uint16_t` and `int` values are natural numbers; every place where the C++
  code narrows a value to 8 or 16 bits is an explicit `% 256` or `% 65536`.
* A `uint8_t *` is the function giving the byte found at each offset from the pointer
  (`Ptr`); a store is `Function.update`, `memcpy` and `memset` are written out below.
* The C++ code reads storage that it has not written: the fresh `new[]` block behind
  `m_packet_bytes`, bytes past the end of a block, and the packet object after
  `delete packet`.  The bytes found there are not determined by the program; they are an
  explicit input of the model (`Indet`), one function per place (`Site`).
* `memcpy` and `memcmp` on a `uint16_t` object depend on the byte order of the machine;
  it is a parameter (`Endian`).
-/

/-! ## Memory -/

/-- Byte order of the machine the code runs on. -/
inductive Endian where
  | little
  | big
  deriving DecidableEq, Repr

/-- The bytes seen through a `uint8_t *`: offset from the pointer to the byte stored there. -/
abbrev Ptr := Nat → Nat

/-- The places where the code obtains storage that it later reads without having written
all of it. -/
inductive Site where
  /-- The block `new uint8_t[m_address_length]` of the constructor. -/
  | m_address
  /-- The block `new uint8_t[m_payload_length]` of the constructor. -/
  | m_payload
  /-- The block `new uint8_t[m_crc_length]` of the constructor. -/
  | m_crc
  /-- The block `new uint8_t[blen]` of the constructor, and what follows it in memory. -/
  | m_packet_bytes
  /-- The bytes that follow the local `uint16_t crc` of the constructor. -/
  | crc_object_end
  /-- The block `new uint8_t[address_length]` of `try_parse`. -/
  | parse_address
  /-- The local array `uint8_t payload[32]` of `try_parse`. -/
  | parse_payload
  /-- The block `new uint8_t[alen]` of `work`. -/
  | tx_address
  /-- The block `new uint8_t[plen]` of `work`. -/
  | tx_payload
  /-- The bytes that follow the storage of the blob vector in `work`. -/
  | blob_end
  /-- The storage of the packet object after `delete packet` in `work`. -/
  | deleted_packet
  deriving DecidableEq, Repr

/-- The bytes found in storage the program has not written, per place and offset. -/
abbrev Indet := Site → Nat → Nat

/-- The C call `memcpy(&dst[d], &src[s], n)`. -/
def memcpy (dst : Ptr) (d : Nat) (src : Ptr) (s n : Nat) : Ptr :=
  fun i => if d ≤ i ∧ i < d + n then src (s + (i - d)) else dst i

/-- The C call `memset(dst, v, n)`. -/
def memset (dst : Ptr) (v n : Nat) : Ptr :=
  fun i => if i < n then v % 256 else dst i

/-- The two bytes of a `uint16_t` object in memory order (first byte, second byte). -/
def uint16_object (host : Endian) (v : Nat) : Nat × Nat :=
  match host with
  | Endian.little => (v % 256, v / 256 % 256)
  | Endian.big => (v / 256 % 256, v % 256)

/-- The memory seen through `&crc` for a local `uint16_t crc`: its two bytes, then whatever
follows the object. -/
def uint16_ptr (host : Endian) (ind : Indet) (v : Nat) : Ptr :=
  fun i =>
    if i = 0 then (uint16_object host v).1
    else if i = 1 then (uint16_object host v).2
    else ind Site.crc_object_end (i - 2)

/-- The libc function `htons` on a 16-bit value. -/
def htons (host : Endian) (v : Nat) : Nat :=
  match host with
  | Endian.little => (v % 256) * 256 + v / 256 % 256
  | Endian.big => v % 65536

/-! ## `shockburst_packet` -/

/-- The data members of `class shockburst_packet` (shockburst_packet.h). -/
structure shockburst_packet where
  /-- Address length. -/
  m_address_length : Nat
  /-- Payload length. -/
  m_payload_length : Nat
  /-- Packet length in bytes, a `uint8_t`. -/
  m_packet_length_bytes : Nat
  /-- Packet length in bits, a `uint16_t`. -/
  m_packet_length_bits : Nat
  /-- CRC length. -/
  m_crc_length : Nat
  /-- Address. -/
  m_address : Ptr
  /-- Payload. -/
  m_payload : Ptr
  /-- CRC. -/
  m_crc : Ptr
  /-- Assembled packet bytes. -/
  m_packet_bytes : Ptr

namespace shockburst_packet

/-- The body of the loop of `crc_update`: one shift of the 16-bit register, with the
polynomial `0x1021` folded in when the bit shifted out is set. -/
def crc_update_step (crc : Nat) : Nat :=
  if crc &&& 0x8000 ≠ 0 then ((crc <<< 1) ^^^ 0x1021) % 65536 else (crc <<< 1) % 65536

/-- The function `shockburst_packet::crc_update(uint16_t crc, uint8_t data, uint8_t bits)`
(shockburst_packet.cc:161-175). -/
def crc_update (crc data bits : Nat) : Nat :=
  crc_update_step^[bits] ((crc ^^^ ((data % 256) <<< 8)) % 65536)

/-- The packet buffer of the constructor just before the CRC is calculated
(shockburst_packet.cc:55-68): the fresh block with preamble, address and payload stored. -/
def assemble (ind : Indet) (address_length payload_length : Nat) (address payload : Ptr) : Ptr :=
  let bytes : Ptr := ind Site.m_packet_bytes
  -- Preamble
  let bytes := Function.update bytes 0 (if address 0 &&& 0x80 = 0x80 then 0xAA else 0x55)
  -- Address
  let bytes := memcpy bytes 1 address 0 address_length
  -- Payload
  (List.range payload_length).foldl
    (fun m b => Function.update m (1 + address_length + b) (payload b)) bytes

/-- The CRC the constructor calculates over its packet buffer (shockburst_packet.cc:70-74). -/
def calculate_crc (bytes : Ptr) (payload_length : Nat) : Nat :=
  let crc := (List.range' 1 (6 + payload_length)).foldl
    (fun crc b => crc_update crc (bytes b) 8) 0xFFFF
  crc_update crc (bytes (6 + payload_length) &&& 0x80) 1

/-- The constructor `shockburst_packet::shockburst_packet` (shockburst_packet.cc:28-79):
the encode path. -/
def ctor (host : Endian) (ind : Indet) (address_length payload_length crc_length : Nat)
    (address payload : Ptr) : shockburst_packet :=
  -- Allocate buffers, copy over address and payload
  let m_address := memcpy (ind Site.m_address) 0 address 0 address_length
  let m_payload := memcpy (ind Site.m_payload) 0 payload 0 payload_length
  -- Build packet bytes
  let blen := 1 + crc_length + address_length + payload_length
  let bytes := assemble ind address_length payload_length address payload
  -- Calculate the CRC
  let crc := calculate_crc bytes payload_length
  let m_crc := memcpy (ind Site.m_crc) 0 (uint16_ptr host ind crc) 0 crc_length
  let bytes := Function.update bytes (1 + address_length + payload_length) (m_crc 0)
  let bytes := Function.update bytes (2 + address_length + payload_length) (m_crc 1)
  { m_address_length := address_length
    m_payload_length := payload_length
    m_packet_length_bytes := blen % 256
    m_packet_length_bits := blen * 8 % 65536
    m_crc_length := crc_length
    m_address := m_address
    m_payload := m_payload
    m_crc := m_crc
    m_packet_bytes := bytes }

/-- Getter `payload_length()`. -/
def payload_length (p : shockburst_packet) : Nat := p.m_payload_length

/-- Getter `bytes_length()`. -/
def bytes_length (p : shockburst_packet) : Nat := p.m_packet_length_bytes

/-- Getter `address()`. -/
def address (p : shockburst_packet) : Ptr := p.m_address

/-- Getter `payload()`. -/
def payload (p : shockburst_packet) : Ptr := p.m_payload

/-- Getter `crc()`. -/
def crc (p : shockburst_packet) : Ptr := p.m_crc

/-- Getter `bytes()`. -/
def bytes (p : shockburst_packet) : Ptr := p.m_packet_bytes

/-- The static function `shockburst_packet::try_parse` (shockburst_packet.cc:90-132).
The result is `none` when the function returns `false` (and leaves `packet` alone), and
`some p` when it returns `true` after storing the new packet `p` in `packet`. -/
def try_parse (host : Endian) (ind : Indet) (bytes bytes_shifted : Ptr)
    (address_length crc_length : Nat) : Option shockburst_packet :=
  -- Read the payload length
  let payload_length := 11
  -- Read the address
  let address := memcpy (ind Site.parse_address) 0 bytes 1 address_length
  -- Read the RX crc: the two bytes of the object `crc_rx`
  let crc_rx : Nat × Nat :=
    (bytes (1 + address_length + payload_length), bytes (1 + address_length + payload_length + 1))
  -- Calculate the CRC
  let crc := (List.range' 1 (address_length + payload_length)).foldl
    (fun crc b => crc_update crc (bytes b) 8) 0xFFFF
  let crc := htons host crc
  -- Validate the CRC
  if uint16_object host crc ≠ crc_rx then none
  else
    -- Read the payload
    let payload := memcpy (ind Site.parse_payload) 0 bytes (1 + address_length) payload_length
    -- Updates the fields
    let _unused := bytes_shifted
    some (ctor host ind address_length payload_length crc_length address payload)

end shockburst_packet

/-! ## `nordic_tx_impl` -/

/-- Modelled from the spec: `nordictap.h`, which declares `nordictap_header`, is not among
the sources.  The fields are those of the request layout table of the specification
(blob offsets 1 to 5): address length, payload length, sequence number, no-ack flag and
CRC length, one byte each. -/
structure nordictap_header where
  /-- Blob offset 1. -/
  address_length : Nat
  /-- Blob offset 2. -/
  payload_length : Nat
  /-- Blob offset 3. -/
  sequence_number : Nat
  /-- Blob offset 4. -/
  no_ack : Nat
  /-- Blob offset 5. -/
  crc_length : Nat

/-- Modelled from the spec: `sizeof(nordictap_header)`; the address starts at blob offset 6. -/
def sizeof_nordictap_header : Nat := 5

/-- The call `memcpy(&header, &p[off], sizeof(nordictap_header))`. -/
def nordictap_header.read (p : Ptr) (off : Nat) : nordictap_header :=
  { address_length := p off
    payload_length := p (off + 1)
    sequence_number := p (off + 2)
    no_ack := p (off + 3)
    crc_length := p (off + 4) }

/-- The data members of `nordic_tx_impl` that `work` and the message handler use. -/
structure nordic_tx_impl where
  /-- Number of output channels. -/
  m_channel_count : Nat
  /-- Transmit queue, front first; a message is the byte vector of its blob. -/
  m_tx_queue : List (List Nat)

/-- What one call of `work` leaves behind: the block, the output buffers, and the returned
number of items. -/
structure work_result where
  /-- The block after the call. -/
  self : nordic_tx_impl
  /-- The output buffers after the call. -/
  output_items : Nat → Ptr
  /-- The value returned. -/
  ret : Nat

namespace nordic_tx_impl

/-- The pointer `vec.data()` of the blob at the front of the queue (nordic_tx_impl.cc:79-80):
the bytes of the vector, then whatever follows its storage. -/
def blob_ptr (ind : Indet) (vec : List Nat) : Ptr :=
  fun i => vec.getD i (ind Site.blob_end (i - vec.length))

/-- The packet `work` builds from a blob (nordic_tx_impl.cc:85-105). -/
def build_packet (host : Endian) (ind : Indet) (blob : Ptr) : shockburst_packet :=
  -- Read the nordictap header, address, and payload
  let header := nordictap_header.read blob 1
  -- Read the address and payload
  let alen := header.address_length
  let plen := header.payload_length
  let address := memcpy (ind Site.tx_address) 0 blob (sizeof_nordictap_header + 1) alen
  let payload := memcpy (ind Site.tx_payload) 0 blob (sizeof_nordictap_header + 1 + alen) plen
  -- Build the packet
  shockburst_packet.ctor host ind header.address_length header.payload_length
    header.crc_length address payload

/-- The loop that writes the output bytes (nordic_tx_impl.cc:111-116). -/
def write_output (packet : shockburst_packet) (out : Ptr) : Ptr :=
  (List.range packet.bytes_length).foldl
    (fun o b => Function.update (Function.update o b (packet.bytes b))
      (packet.bytes_length * 2 + b) (packet.bytes b))
    out

/-- The loop that writes zeros to the other channels' buffers (nordic_tx_impl.cc:118-125). -/
def zero_other_channels (m_channel_count channel : Nat) (packet : shockburst_packet)
    (output_items : Nat → Ptr) : Nat → Ptr :=
  (List.range m_channel_count).foldl
    (fun os c =>
      if c ≠ channel then Function.update os c (memset (os c) 0 (packet.bytes_length * 2))
      else os)
    output_items

/-- The value of `packet->bytes_length()` read at nordic_tx_impl.cc:133, after
`delete packet` at line 130: the byte found in the storage of the deleted object. -/
def deleted_bytes_length (ind : Indet) : Nat := ind Site.deleted_packet 0 % 256

/-- The function `nordic_tx_impl::work` (nordic_tx_impl.cc:68-139). -/
def work (host : Endian) (ind : Indet) (self : nordic_tx_impl) (noutput_items : Nat)
    (output_items : Nat → Ptr) : work_result :=
  -- Check for new input
  match self.m_tx_queue with
  | [] => { self := self, output_items := output_items, ret := 0 }
  | vec :: rest =>
    let _unused := noutput_items
    -- Get the blob
    let blob := blob_ptr ind vec
    -- Read the channel index
    let channel := blob 0
    -- Build the packet
    let packet := build_packet host ind blob
    -- Remove the blob from the queue
    let self := { self with m_tx_queue := rest }
    -- Write the output bytes
    let out := write_output packet (output_items channel)
    let output_items := Function.update output_items channel out
    -- Write zeros to the other channels' buffers
    let output_items := zero_other_channels self.m_channel_count channel packet output_items
    -- Cleanup, then return the number of bytes produced
    { self := self
      output_items := output_items
      ret := deleted_bytes_length ind * 2 }

/-- The body of the loop of `nordic_tx_impl::crc_update`. -/
def crc_update_step (crc : Nat) : Nat :=
  if crc &&& 0x8000 ≠ 0 then ((crc <<< 1) ^^^ 0x1021) % 65536 else (crc <<< 1) % 65536

/-- The function `nordic_tx_impl::crc_update` (nordic_tx_impl.cc:141-151). -/
def crc_update (crc data bits : Nat) : Nat :=
  crc_update_step^[bits] ((crc ^^^ ((data % 256) <<< 8)) % 65536)

end nordic_tx_impl

/-! ## CRC-16/CCITT as polynomial division over GF(2)

A polynomial over GF(2) is a natural number: bit `i` is the coefficient of `x^i`.
Addition of polynomials is `^^^`, multiplication by `x^k` is `<<< k`. -/

/-- Schoolbook long division by `g`, a polynomial of degree `dg`: `n` steps, from the
coefficient of `x^(dg+n-1)` down to that of `x^dg`; a step cancels its coefficient, when
it is set, by adding `g * x^k`.  The result is the remainder when the dividend has degree
below `dg + n`. -/
def gf2_mod (g dg : Nat) : Nat → Nat → Nat
  | 0, a => a
  | k + 1, a => gf2_mod g dg k (if a.testBit (dg + k) then a ^^^ (g <<< k) else a)

/-- Product of two polynomials over GF(2): the sum of `b * x^i` over the first `n`
coefficients `i` of `a` that are set. -/
def gf2_mul (a b : Nat) : Nat → Nat
  | 0 => 0
  | i + 1 => (if a.testBit i then b <<< i else 0) ^^^ gf2_mul a b i

/-- The message as a polynomial: the bytes in order, most significant bit first. -/
def msg_poly (bytes : List Nat) : Nat := bytes.foldl (fun m b => m * 256 + b) 0

/-- The generator polynomial `x^16 + x^12 + x^5 + 1` of CRC-16/CCITT (`0x1021` with the
leading term written out). -/
def ccitt_poly : Nat := 0x11021

/-- CRC-16/CCITT with initial value `0xFFFF`, no reflection and no final XOR: the remainder
of `M(x) * x^16 + 0xFFFF * x^(8n)` by the generator, for a message `M` of `n` bytes. -/
def crc16_ccitt (bytes : List Nat) : Nat :=
  gf2_mod ccitt_poly 16 (8 * bytes.length)
    ((msg_poly bytes <<< 16) ^^^ (0xFFFF <<< (8 * bytes.length)))

/-- The ASCII bytes of `"123456789"`. -/
def check_string : List Nat := [0x31, 0x32, 0x33, 0x34, 0x35, 0x36, 0x37, 0x38, 0x39]

/-! ## Sample data -/

/-- The bytes of a list seen through a pointer; offsets past the list read as `0`. -/
def ptr_of (l : List Nat) : Ptr := fun i => l.getD i 0

/-- Storage in which every byte the program has not written is `j`. -/
def fill_mem (j : Nat) : Indet := fun _ _ => j

/-- Storage in which every byte the program has not written is `0`. -/
def zero_mem : Indet := fill_mem 0

/-- A 5-byte address. -/
def sample_address : Ptr := ptr_of [0xE7, 0xE7, 0xE7, 0xE7, 0xE7]

/-- An 11-byte payload. -/
def sample_payload : Ptr := ptr_of [1, 2, 3, 4, 5, 6, 7, 8, 9, 10, 11]

/-- A received frame with the sample address and payload, followed by the CRC-16/CCITT of
those 16 bytes (`0x21D8`), high byte first. -/
def sample_frame : Ptr :=
  ptr_of [0xAA, 0xE7, 0xE7, 0xE7, 0xE7, 0xE7, 1, 2, 3, 4, 5, 6, 7, 8, 9, 10, 11, 0x21, 0xD8]

/-- A transmit request: channel 2, address length 5, payload length 3, CRC length 2, then the
address and the payload. -/
def sample_blob : List Nat := [2, 5, 3, 0, 0, 2, 0xE7, 0xE7, 0xE7, 0xE7, 0xE7, 1, 2, 3]

/-- Four output buffers (and the unused ones) filled with `0xFF`. -/
def sample_outputs : Nat → Ptr := fun _ _ => 0xFF

/-- Storage `ind` with the byte found at one offset of one place replaced by `v`. -/
def poke (ind : Indet) (s : Site) (off v : Nat) : Indet :=
  fun s' i => if s' = s ∧ i = off then v else ind s' i

/-- A transmit request that declares address length 5 and payload length 200 and supplies
only its six header bytes (channel 2, CRC length 2). -/
def short_blob : List Nat := [2, 5, 200, 0, 0, 2]

/-- A transmit request with address length 5, payload length 250 and CRC length 2 for
channel 2: the packet assembled from it has `1 + 2 + 5 + 250 = 258` bytes. -/
def long_blob : List Nat := [2, 5, 250, 0, 0, 2] ++ List.replicate 255 0xE7

namespace nordic_tx_impl

end nordic_tx_impl

namespace shockburst_packet

/-- The number of bytes the constructor allocates for `m_packet_bytes`: `blen`
(shockburst_packet.cc:48-55). -/
def allocated (address_length payload_length crc_length : Nat) : Nat :=
  1 + crc_length + address_length + payload_length

/-- The offsets of `m_packet_bytes` that the constructor reads or writes, in program order
(shockburst_packet.cc:57-78): the preamble store, the `memcpy` of the address, the payload
loop, the reads of the CRC loop `b = 1 .. 6 + m_payload_length`, the read of the trailing
bit at `6 + m_payload_length`, and the two CRC stores. -/
def accesses (address_length payload_length : Nat) : List Nat :=
  [0] ++ (List.range address_length).map (fun i => 1 + i)
    ++ (List.range payload_length).map (fun b => 1 + address_length + b)
    ++ List.range' 1 (6 + payload_length)
    ++ [6 + payload_length]
    ++ [1 + address_length + payload_length, 2 + address_length + payload_length]

end shockburst_packet

/-! ## Lemmas on bit operations -/

theorem xor_shiftLeft (a b k : Nat) : (a ^^^ b) <<< k = (a <<< k) ^^^ (b <<< k) := by
  apply Nat.eq_of_testBit_eq
  intro i
  simp only [Nat.testBit_shiftLeft, Nat.testBit_xor]
  by_cases h : i ≥ k <;> simp [h]

theorem shiftLeft_lt_two_pow {a n : Nat} (k : Nat) (h : a < 2 ^ n) : a <<< k < 2 ^ (n + k) := by
  rw [Nat.shiftLeft_eq, Nat.pow_add]
  exact Nat.mul_lt_mul_of_pos_right h (Nat.two_pow_pos k)

theorem testBit_false_of_lt {a n i : Nat} (h : a < 2 ^ n) (hi : n ≤ i) : a.testBit i = false :=
  Nat.testBit_lt_two_pow (Nat.lt_of_lt_of_le h (Nat.pow_le_pow_right (by decide) hi))

theorem mod_two_pow_eq_self_of_lt {a n : Nat} (h : a < 2 ^ n) : a % 2 ^ n = a := Nat.mod_eq_of_lt h

/-! ## Long division over GF(2) -/

theorem gf2_mod_succ (g dg k a : Nat) :
    gf2_mod g dg (k + 1) a = gf2_mod g dg k (if a.testBit (dg + k) then a ^^^ (g <<< k) else a) := rfl

/-- One step of the long division brings the degree down by one. -/
theorem gf2_step_lt {g dg k a : Nat} (hg : g.testBit dg = true) (hg2 : g < 2 ^ (dg + 1))
    (ha : a < 2 ^ (dg + (k + 1))) :
    (if a.testBit (dg + k) then a ^^^ (g <<< k) else a) < 2 ^ (dg + k) := by
  apply Nat.lt_pow_two_of_testBit
  intro i hi
  by_cases hb : a.testBit (dg + k) = true
  · rw [if_pos hb, Nat.testBit_xor, Nat.testBit_shiftLeft]
    rcases Nat.eq_or_lt_of_le hi with h | h
    · subst h
      have : dg + k - k = dg := by omega
      simp [hb, this, hg]
    · have h1 : a.testBit i = false := testBit_false_of_lt ha (by omega)
      have h2 : g.testBit (i - k) = false := testBit_false_of_lt hg2 (by omega)
      simp [h1, h2]
  · rw [if_neg hb]
    rcases Nat.eq_or_lt_of_le hi with h | h
    · subst h; simpa using hb
    · exact testBit_false_of_lt ha (by omega)

/-- The remainder has degree below that of the divisor. -/
theorem gf2_mod_lt {g dg : Nat} (hg : g.testBit dg = true) (hg2 : g < 2 ^ (dg + 1)) :
    ∀ (n a : Nat), a < 2 ^ (dg + n) → gf2_mod g dg n a < 2 ^ dg
  | 0, a, h => by simpa [gf2_mod] using h
  | n + 1, a, h => by
    rw [gf2_mod_succ]
    exact gf2_mod_lt hg hg2 n _ (gf2_step_lt hg hg2 h)

/-- Terms of degree below that of the divisor pass through the division unchanged. -/
theorem gf2_mod_xor_low (g dg : Nat) {y : Nat} (hy : y < 2 ^ dg) :
    ∀ (n a : Nat), gf2_mod g dg n (a ^^^ y) = gf2_mod g dg n a ^^^ y
  | 0, a => rfl
  | n + 1, a => by
    have hb : (a ^^^ y).testBit (dg + n) = a.testBit (dg + n) := by
      rw [Nat.testBit_xor, testBit_false_of_lt hy (by omega)]; simp
    rw [gf2_mod_succ, gf2_mod_succ, hb]
    by_cases h : a.testBit (dg + n) = true
    · rw [if_pos h, if_pos h, Nat.xor_assoc, Nat.xor_comm y, ← Nat.xor_assoc]
      exact gf2_mod_xor_low g dg hy n _
    · rw [if_neg h, if_neg h]
      exact gf2_mod_xor_low g dg hy n _

/-- Dividing `a * x` takes the steps of dividing `a`, then one more. -/
theorem gf2_mod_shiftLeft_one (g dg : Nat) :
    ∀ (n a : Nat), gf2_mod g dg (n + 1) (a <<< 1) = gf2_mod g dg 1 (gf2_mod g dg n a <<< 1)
  | 0, a => rfl
  | n + 1, a => by
    have hb : (a <<< 1).testBit (dg + (n + 1)) = a.testBit (dg + n) := by
      rw [Nat.testBit_shiftLeft]
      have h1 : dg + (n + 1) - 1 = dg + n := by omega
      have h2 : dg + (n + 1) ≥ 1 := by omega
      simp [h1, h2]
    rw [gf2_mod_succ g dg (n + 1) (a <<< 1), hb, gf2_mod_succ g dg n a]
    by_cases h : a.testBit (dg + n) = true
    · rw [if_pos h, if_pos h, Nat.shiftLeft_add g n 1, ← xor_shiftLeft]
      exact gf2_mod_shiftLeft_one g dg n _
    · rw [if_neg h, if_neg h]
      exact gf2_mod_shiftLeft_one g dg n _

/-! ## The CRC register as a remainder -/

namespace shockburst_packet

theorem crc_update_step_lt (c : Nat) : crc_update_step c < 65536 := by
  unfold crc_update_step
  split <;> exact Nat.mod_lt _ (by decide)

theorem crc_update_step_iterate_lt {c : Nat} (h : c < 65536) (n : Nat) :
    crc_update_step^[n] c < 65536 := by
  cases n with
  | zero => simpa using h
  | succ n => rw [Function.iterate_succ_apply']; exact crc_update_step_lt _

theorem crc_update_lt (c d n : Nat) : crc_update c d n < 65536 :=
  crc_update_step_iterate_lt (Nat.mod_lt _ (by decide)) n

/-- The test `crc & 0x8000` reads bit 15. -/
theorem and_0x8000 (c : Nat) : (c &&& 0x8000 ≠ 0) ↔ c.testBit 15 = true := by
  have h := Nat.and_two_pow c 15
  have e : (0x8000 : Nat) = 2 ^ 15 := by norm_num
  rw [e, h]
  cases c.testBit 15 <;> simp

/-- One shift of the register is one step of the long division by the generator. -/
theorem crc_update_step_eq_gf2_mod {c : Nat} (h : c < 65536) :
    crc_update_step c = gf2_mod ccitt_poly 16 1 (c <<< 1) := by
  have hb : (c <<< 1).testBit 16 = c.testBit 15 := by
    rw [Nat.testBit_shiftLeft]; simp
  unfold crc_update_step
  simp only [gf2_mod, Nat.add_zero, Nat.shiftLeft_zero, hb, and_0x8000]
  by_cases ht : c.testBit 15 = true
  · rw [if_pos ht, if_pos ht]
    apply Nat.eq_of_testBit_eq
    intro i
    have e : (65536 : Nat) = 2 ^ 16 := by norm_num
    rw [e, Nat.testBit_mod_two_pow, Nat.testBit_xor, Nat.testBit_xor]
    by_cases hi : i < 16
    · have : (0x1021 : Nat).testBit i = ccitt_poly.testBit i := by
        unfold ccitt_poly
        interval_cases i <;> decide
      simp [hi, this]
    · rcases Nat.eq_or_lt_of_le (Nat.le_of_not_lt hi) with h16 | h16
      · subst h16
        rw [hb, ht]
        decide
      · have h1 : (c <<< 1).testBit i = false :=
          testBit_false_of_lt (shiftLeft_lt_two_pow 1 (show c < 2 ^ 16 by omega)) (by omega)
        have h2 : ccitt_poly.testBit i = false :=
          testBit_false_of_lt (show ccitt_poly < 2 ^ 17 by decide) (by omega)
        simp [hi, h1, h2]
  · rw [if_neg ht, if_neg ht]
    have hlt : c <<< 1 < 65536 := by
      have h15 : c.testBit 15 = false := by simpa using ht
      rw [Nat.testBit_to_div_mod] at h15
      have : ¬ (c / 2 ^ 15 % 2 = 1) := by simpa using h15
      rw [Nat.shiftLeft_eq]
      omega
    exact Nat.mod_eq_of_lt hlt

end shockburst_packet

theorem ccitt_poly_testBit : ccitt_poly.testBit 16 = true := by decide

theorem ccitt_poly_lt : ccitt_poly < 2 ^ (16 + 1) := by decide

/-- Shifting the register `j` times divides `a * x^j`, when the register holds the
remainder of `a`. -/
theorem crc_update_step_iterate_eq_gf2_mod {n a : Nat} (ha : a < 2 ^ (16 + n)) (j : Nat) :
    shockburst_packet.crc_update_step^[j] (gf2_mod ccitt_poly 16 n a) =
      gf2_mod ccitt_poly 16 (n + j) (a <<< j) := by
  induction j with
  | zero => rfl
  | succ j ih =>
    have hlt : shockburst_packet.crc_update_step^[j] (gf2_mod ccitt_poly 16 n a) < 65536 :=
      shockburst_packet.crc_update_step_iterate_lt
        (gf2_mod_lt ccitt_poly_testBit ccitt_poly_lt n a ha) j
    rw [Function.iterate_succ_apply', shockburst_packet.crc_update_step_eq_gf2_mod hlt, ih,
      ← gf2_mod_shiftLeft_one, ← Nat.shiftLeft_add, Nat.add_assoc]

/-- Feeding one byte to the register that holds the remainder of `a` leaves the remainder
of `a * x^8 + b * x^16`. -/
theorem crc_update_eq_gf2_mod {n a b : Nat} (ha : a < 2 ^ (16 + n)) (hb : b < 256) :
    shockburst_packet.crc_update (gf2_mod ccitt_poly 16 n a) b 8 =
      gf2_mod ccitt_poly 16 (n + 8) ((a <<< 8) ^^^ (b <<< 16)) := by
  have hb8 : b <<< 8 < 2 ^ 16 := shiftLeft_lt_two_pow 8 (show b < 2 ^ 8 by omega)
  have hr : gf2_mod ccitt_poly 16 n a < 2 ^ 16 := gf2_mod_lt ccitt_poly_testBit ccitt_poly_lt n a ha
  have hx : a ^^^ (b <<< 8) < 2 ^ (16 + n) :=
    Nat.xor_lt_two_pow ha (Nat.lt_of_lt_of_le hb8 (Nat.pow_le_pow_right (by decide) (by omega)))
  unfold shockburst_packet.crc_update
  rw [Nat.mod_eq_of_lt hb, Nat.mod_eq_of_lt (Nat.xor_lt_two_pow hr hb8),
    ← gf2_mod_xor_low ccitt_poly 16 hb8, crc_update_step_iterate_eq_gf2_mod hx, xor_shiftLeft,
    ← Nat.shiftLeft_add]

theorem msg_poly_concat (bytes : List Nat) (b : Nat) :
    msg_poly (bytes ++ [b]) = msg_poly bytes * 256 + b := by
  simp [msg_poly, List.foldl_append]

theorem msg_poly_lt : ∀ (bytes : List Nat), (∀ b ∈ bytes, b < 256) →
    msg_poly bytes < 2 ^ (8 * bytes.length) := by
  intro bytes
  induction bytes using List.reverseRecOn with
  | nil => intro _; simp [msg_poly]
  | append_singleton l b ih =>
    intro h
    have hl := ih (fun x hx => h x (List.mem_append_left _ hx))
    have hb : b < 256 := h b (by simp)
    rw [msg_poly_concat, List.length_append, List.length_singleton, Nat.mul_add, Nat.pow_add]
    norm_num
    nlinarith

/-- Appending a byte to the message multiplies the dividend by `x^8` and adds the byte. -/
theorem dividend_concat (m b n : Nat) (hb : b < 256) :
    ((m * 256 + b) <<< 16) ^^^ (0xFFFF <<< (n + 8)) =
      (((m <<< 16) ^^^ (0xFFFF <<< n)) <<< 8) ^^^ (b <<< 16) := by
  have e : m * 256 + b = (m <<< 8) ^^^ b := by
    apply Nat.eq_of_testBit_eq
    intro i
    have := Nat.testBit_mul_pow_two_add m (show b < 2 ^ 8 by omega) i
    rw [Nat.mul_comm] at this
    norm_num at this
    rw [this, Nat.testBit_xor, Nat.testBit_shiftLeft]
    by_cases hi : i < 8
    · have h8 : ¬ 8 ≤ i := by omega
      simp [hi, h8]
    · have : b.testBit i = false := testBit_false_of_lt (show b < 2 ^ 8 by omega) (by omega)
      simp [hi, this]
      omega
  have e1 : m <<< 8 <<< 16 = m <<< 16 <<< 8 := by
    rw [← Nat.shiftLeft_add, ← Nat.shiftLeft_add]
  rw [e, xor_shiftLeft, xor_shiftLeft, e1, ← Nat.shiftLeft_add 0xFFFF, Nat.xor_assoc,
    Nat.xor_assoc, Nat.xor_comm (b <<< 16)]

/-- The register after the bytes of a message, as a remainder. -/
theorem crc_update_foldl_eq_crc16_ccitt (bytes : List Nat) (h : ∀ b ∈ bytes, b < 256) :
    bytes.foldl (fun crc b => shockburst_packet.crc_update crc b 8) 0xFFFF = crc16_ccitt bytes := by
  induction bytes using List.reverseRecOn with
  | nil => rfl
  | append_singleton l b ih =>
    have hl : ∀ x ∈ l, x < 256 := fun x hx => h x (List.mem_append_left _ hx)
    have hb : b < 256 := h b (by simp)
    have hm := msg_poly_lt l hl
    have hd : (msg_poly l <<< 16) ^^^ (0xFFFF <<< (8 * l.length)) < 2 ^ (16 + 8 * l.length) := by
      apply Nat.xor_lt_two_pow
      · rw [Nat.add_comm]; exact shiftLeft_lt_two_pow 16 hm
      · exact shiftLeft_lt_two_pow _ (by decide)
    rw [List.foldl_append, List.foldl_cons, List.foldl_nil, ih hl]
    unfold crc16_ccitt
    rw [crc_update_eq_gf2_mod hd hb, msg_poly_concat, List.length_append, List.length_singleton,
      Nat.mul_add, dividend_concat _ _ _ hb]

/-- The product reads only the first `n` coefficients of its left factor. -/
theorem gf2_mul_congr {a a' : Nat} (b : Nat) :
    ∀ (n : Nat), (∀ i < n, a.testBit i = a'.testBit i) → gf2_mul a b n = gf2_mul a' b n
  | 0, _ => rfl
  | n + 1, h => by
    simp only [gf2_mul]
    rw [h n (Nat.lt_succ_self n), gf2_mul_congr b n (fun i hi => h i (Nat.lt_succ_of_lt hi))]

/-- The long division is a division: the dividend is quotient times divisor plus the
remainder, and the remainder has degree below that of the divisor. -/
theorem gf2_mod_division {g dg : Nat} (hg : g.testBit dg = true) (hg2 : g < 2 ^ (dg + 1)) :
    ∀ (n a : Nat), a < 2 ^ (dg + n) →
      gf2_mod g dg n a < 2 ^ dg ∧ ∃ q, q < 2 ^ n ∧ a = gf2_mul q g n ^^^ gf2_mod g dg n a
  | 0, a, h => ⟨by simpa [gf2_mod] using h, 0, by simp, by simp [gf2_mul, gf2_mod]⟩
  | n + 1, a, h => by
    refine ⟨gf2_mod_lt hg hg2 (n + 1) a h, ?_⟩
    obtain ⟨_, q, hq, hqa⟩ := gf2_mod_division hg hg2 n _ (gf2_step_lt hg hg2 h)
    rw [gf2_mod_succ]
    have hqn : q.testBit n = false := Nat.testBit_lt_two_pow hq
    by_cases hb : a.testBit (dg + n) = true
    · rw [if_pos hb] at hqa ⊢
      refine ⟨q ^^^ 2 ^ n, ?_, ?_⟩
      · exact Nat.xor_lt_two_pow (Nat.lt_of_lt_of_le hq (Nat.pow_le_pow_right (by decide) (by omega)))
          (Nat.pow_lt_pow_right (by decide) (Nat.lt_succ_self n))
      · have h1 : (q ^^^ 2 ^ n).testBit n = true := by
          rw [Nat.testBit_xor, hqn, Nat.testBit_two_pow_self]; rfl
        have h2 : gf2_mul (q ^^^ 2 ^ n) g n = gf2_mul q g n := by
          apply gf2_mul_congr
          intro i hi
          rw [Nat.testBit_xor, Nat.testBit_two_pow]
          have : ¬ n = i := by omega
          simp [this]
        simp only [gf2_mul]
        rw [h1, h2, if_pos rfl, Nat.xor_assoc, ← hqa, ← Nat.xor_assoc, Nat.xor_comm,
          ← Nat.xor_assoc, Nat.xor_self, Nat.zero_xor]
    · rw [if_neg hb] at hqa ⊢
      refine ⟨q, Nat.lt_of_lt_of_le hq (Nat.pow_le_pow_right (by decide) (by omega)), ?_⟩
      simp only [gf2_mul]
      rw [hqn]
      simpa using hqa

/-- The value `crc16_ccitt` is the remainder of the division of the message polynomial,
with the initial value added to its leading 16 coefficients, by the generator. -/
theorem crc16_ccitt_division (bytes : List Nat) (h : ∀ b ∈ bytes, b < 256) :
    crc16_ccitt bytes < 2 ^ 16 ∧
      ∃ q, (msg_poly bytes <<< 16) ^^^ (0xFFFF <<< (8 * bytes.length)) =
        gf2_mul q ccitt_poly (8 * bytes.length) ^^^ crc16_ccitt bytes := by
  have hd : (msg_poly bytes <<< 16) ^^^ (0xFFFF <<< (8 * bytes.length)) <
      2 ^ (16 + 8 * bytes.length) := by
    apply Nat.xor_lt_two_pow
    · rw [Nat.add_comm]; exact shiftLeft_lt_two_pow 16 (msg_poly_lt bytes h)
    · exact shiftLeft_lt_two_pow _ (by decide)
  obtain ⟨h1, q, _, h2⟩ := gf2_mod_division ccitt_poly_testBit ccitt_poly_lt _ _ hd
  exact ⟨h1, q, h2⟩

/-- The product is additive in its left factor. -/
theorem gf2_mul_xor (a a' b : Nat) :
    ∀ (n : Nat), gf2_mul (a ^^^ a') b n = gf2_mul a b n ^^^ gf2_mul a' b n
  | 0 => by simp [gf2_mul]
  | n + 1 => by
    simp only [gf2_mul]
    rw [gf2_mul_xor a a' b n, Nat.testBit_xor]
    apply Nat.eq_of_testBit_eq
    intro i
    cases a.testBit n <;> cases a'.testBit n <;>
      simp only [Bool.xor_false, Bool.xor_true, Bool.not_false, Bool.not_true, if_true,
        Bool.false_eq_true, if_false, Nat.testBit_xor, Nat.zero_testBit] <;>
      generalize (b <<< n).testBit i = x <;>
      generalize (gf2_mul a b n).testBit i = y <;>
      generalize (gf2_mul a' b n).testBit i = z <;>
      cases x <;> cases y <;> cases z <;> rfl

/-- The degree of a product of `n` coefficients with `b` is below `deg b + n`. -/
theorem gf2_mul_lt {b dg : Nat} (hb : b < 2 ^ (dg + 1)) (a : Nat) :
    ∀ (n : Nat), gf2_mul a b n < 2 ^ (dg + n)
  | 0 => Nat.two_pow_pos _
  | n + 1 => by
    simp only [gf2_mul]
    apply Nat.xor_lt_two_pow
    · split
      · have := shiftLeft_lt_two_pow n hb
        rwa [Nat.add_right_comm] at this
      · exact Nat.two_pow_pos _
    · exact Nat.lt_of_lt_of_le (gf2_mul_lt hb a n) (Nat.pow_le_pow_right (by decide) (by omega))

/-- A product with a nonzero left factor has at least the degree of the right factor. -/
theorem gf2_mul_ge {b dg : Nat} (hb : b.testBit dg = true) (hb2 : b < 2 ^ (dg + 1)) (a : Nat) :
    ∀ (n : Nat), (∃ i, i < n ∧ a.testBit i = true) → 2 ^ dg ≤ gf2_mul a b n
  | 0, ⟨i, hi, _⟩ => absurd hi (Nat.not_lt_zero i)
  | n + 1, ⟨i, hi, hbit⟩ => by
    simp only [gf2_mul]
    by_cases hn : a.testBit n = true
    · rw [if_pos hn]
      have htop : ((b <<< n) ^^^ gf2_mul a b n).testBit (dg + n) = true := by
        rw [Nat.testBit_xor, Nat.testBit_shiftLeft, Nat.testBit_lt_two_pow (gf2_mul_lt hb2 a n)]
        have : dg + n - n = dg := by omega
        simp [this, hb]
      exact Nat.le_trans (Nat.pow_le_pow_right (by decide) (Nat.le_add_right dg n))
        (Nat.testBit_implies_ge htop)
    · rw [if_neg hn, Nat.zero_xor]
      have hi' : i < n := by
        rcases Nat.lt_succ_iff_lt_or_eq.mp hi with h | h
        · exact h
        · subst h; exact absurd hbit hn
      exact gf2_mul_ge hb hb2 a n ⟨i, hi', hbit⟩

/-- The remainder of a division is unique. -/
theorem gf2_remainder_unique {g dg : Nat} (hg : g.testBit dg = true) (hg2 : g < 2 ^ (dg + 1))
    {q q' r r' n : Nat} (hr : r < 2 ^ dg) (hr' : r' < 2 ^ dg)
    (h : gf2_mul q g n ^^^ r = gf2_mul q' g n ^^^ r') : r = r' := by
  have h1 : gf2_mul (q ^^^ q') g n = r ^^^ r' := by
    rw [gf2_mul_xor]
    have := congrArg (fun x => gf2_mul q' g n ^^^ (x ^^^ r)) h
    simp only [] at this
    rw [Nat.xor_assoc, Nat.xor_self, Nat.xor_zero, Nat.xor_comm] at this
    rw [this, Nat.xor_assoc (gf2_mul q' g n), Nat.xor_comm r' r, ← Nat.xor_assoc,
      Nat.xor_self, Nat.zero_xor, Nat.xor_comm]
  have h2 : ¬ ∃ i, i < n ∧ (q ^^^ q').testBit i = true := by
    intro hex
    have := gf2_mul_ge hg hg2 (q ^^^ q') n hex
    rw [h1] at this
    exact absurd (Nat.xor_lt_two_pow hr hr') (Nat.not_lt.mpr this)
  have h3 : gf2_mul (q ^^^ q') g n = gf2_mul 0 g n := by
    apply gf2_mul_congr
    intro i hi
    rw [Nat.zero_testBit]
    by_contra hne
    exact h2 ⟨i, hi, by simpa using hne⟩
  have h4 : gf2_mul 0 g n = 0 := by
    have := gf2_mul_xor 0 0 g n
    rw [Nat.xor_self, Nat.xor_self] at this
    exact this
  rw [h3, h4] at h1
  have h5 : r ^^^ r = r ^^^ r' := by rw [Nat.xor_self]; exact h1
  exact Nat.xor_right_inj.mp h5

/-- The value `crc16_ccitt` is the only remainder of the division of the message
polynomial, with the initial value added to its leading 16 coefficients, by the generator. -/
theorem crc16_ccitt_unique (bytes : List Nat) (h : ∀ b ∈ bytes, b < 256) (q r : Nat)
    (hr : r < 2 ^ 16)
    (hq : (msg_poly bytes <<< 16) ^^^ (0xFFFF <<< (8 * bytes.length)) =
      gf2_mul q ccitt_poly (8 * bytes.length) ^^^ r) : r = crc16_ccitt bytes := by
  obtain ⟨h1, q', h2⟩ := crc16_ccitt_division bytes h
  exact gf2_remainder_unique ccitt_poly_testBit ccitt_poly_lt hr h1 (hq.symm.trans h2)

/-! ## The parser -/

namespace shockburst_packet

/-- The bytes of `htons(crc)` in memory are the high byte, then the low byte, on either
kind of machine. -/
theorem uint16_object_htons (host : Endian) {c : Nat} (h : c < 65536) :
    uint16_object host (htons host c) = (c / 256, c % 256) := by
  have h1 : c / 256 < 256 := by omega
  have h2 : c / 256 % 256 = c / 256 := Nat.mod_eq_of_lt h1
  cases host
  · have h3 : (c % 256 * 256 + c / 256) % 256 = c / 256 := by
      rw [Nat.mul_comm, Nat.mul_add_mod, h2]
    have h4 : (c % 256 * 256 + c / 256) / 256 % 256 = c % 256 := by
      rw [Nat.mul_comm, Nat.mul_add_div (by decide), Nat.div_eq_of_lt h1, Nat.add_zero,
        Nat.mod_mod]
    simp only [uint16_object, htons, h2, h3, h4]
  · simp only [uint16_object, htons, Nat.mod_eq_of_lt h, h2, Nat.mod_mod]

/-- The register stays below `2^16` along a run of byte updates. -/
theorem crc_foldl_lt (f : Ptr) (l : List Nat) {c : Nat} (h : c < 65536) :
    l.foldl (fun crc b => crc_update crc (f b) 8) c < 65536 := by
  induction l generalizing c with
  | nil => simpa using h
  | cons x l ih => exact ih (crc_update_lt _ _ _)

/-- When `try_parse` returns `true`. -/
theorem try_parse_isSome_iff (host : Endian) (ind : Indet) (buf sh : Ptr) (alen clen : Nat) :
    (try_parse host ind buf sh alen clen).isSome = true ↔
      (buf (1 + alen + 11) =
          (List.range' 1 (alen + 11)).foldl (fun crc b => crc_update crc (buf b) 8) 0xFFFF / 256 ∧
        buf (2 + alen + 11) =
          (List.range' 1 (alen + 11)).foldl (fun crc b => crc_update crc (buf b) 8) 0xFFFF % 256) := by
  have hc := crc_foldl_lt buf (List.range' 1 (alen + 11)) (show 0xFFFF < 65536 by decide)
  simp only [try_parse, uint16_object_htons host hc]
  have e : 1 + alen + 11 + 1 = 2 + alen + 11 := by omega
  rw [e]
  by_cases h : ((List.range' 1 (alen + 11)).foldl (fun crc b => crc_update crc (buf b) 8) 0xFFFF / 256,
      (List.range' 1 (alen + 11)).foldl (fun crc b => crc_update crc (buf b) 8) 0xFFFF % 256) =
      (buf (1 + alen + 11), buf (2 + alen + 11))
  · have h' := h
    rw [Prod.mk.injEq] at h'
    rw [if_neg (not_not.mpr h)]
    simp [h'.1.symm, h'.2.symm]
  · have h' := h
    rw [Prod.mk.injEq] at h'
    rw [if_pos h]
    simp only [Option.isSome_none]
    refine ⟨fun hf => absurd hf (by decide), ?_⟩
    intro hh
    exact absurd ⟨hh.1.symm, hh.2.symm⟩ h'

/-- The packet that `try_parse` builds when it returns `true`. -/
theorem try_parse_eq_some (host : Endian) (ind : Indet) (buf sh : Ptr) (alen clen : Nat)
    (p : shockburst_packet) (h : try_parse host ind buf sh alen clen = some p) :
    p = ctor host ind alen 11 clen (memcpy (ind Site.parse_address) 0 buf 1 alen)
      (memcpy (ind Site.parse_payload) 0 buf (1 + alen) 11) := by
  simp only [try_parse] at h
  split at h
  · exact absurd h (by simp)
  · exact (Option.some.inj h).symm

end shockburst_packet

/-! ## Error detection -/

namespace shockburst_packet

/-- The bit shifted out of the register can be read back from the result. -/
theorem crc_update_step_testBit_zero {c : Nat} (h : c < 65536) :
    (crc_update_step c).testBit 0 = c.testBit 15 := by
  have hb : (c <<< 1).testBit 16 = c.testBit 15 := by
    rw [Nat.testBit_shiftLeft]; simp
  have h0 : (c <<< 1).testBit 0 = false := by
    rw [Nat.testBit_shiftLeft]; simp
  rw [crc_update_step_eq_gf2_mod h]
  simp only [gf2_mod, Nat.add_zero, Nat.shiftLeft_zero, hb]
  by_cases ht : c.testBit 15 = true
  · rw [if_pos ht, Nat.testBit_xor, h0, ht]
    decide
  · rw [if_neg ht, h0]
    simpa using ht

/-- One shift of the register loses nothing. -/
theorem crc_update_step_injective {a b : Nat} (ha : a < 65536) (hb : b < 65536)
    (h : crc_update_step a = crc_update_step b) : a = b := by
  have ht : a.testBit 15 = b.testBit 15 := by
    rw [← crc_update_step_testBit_zero ha, ← crc_update_step_testBit_zero hb, h]
  have hba : (a <<< 1).testBit 16 = a.testBit 15 := by
    rw [Nat.testBit_shiftLeft]; simp
  have hbb : (b <<< 1).testBit 16 = b.testBit 15 := by
    rw [Nat.testBit_shiftLeft]; simp
  rw [crc_update_step_eq_gf2_mod ha, crc_update_step_eq_gf2_mod hb] at h
  simp only [gf2_mod, Nat.add_zero, Nat.shiftLeft_zero, hba, hbb, ← ht] at h
  have h2 : a <<< 1 = b <<< 1 := by
    by_cases hc : a.testBit 15 = true
    · rw [if_pos hc, if_pos hc] at h
      exact Nat.xor_left_inj.mp h
    · rw [if_neg hc, if_neg hc] at h
      exact h
  rw [Nat.shiftLeft_eq, Nat.shiftLeft_eq] at h2
  omega

theorem crc_update_step_iterate_injective (n : Nat) {a b : Nat} (ha : a < 65536)
    (hb : b < 65536) (h : crc_update_step^[n] a = crc_update_step^[n] b) : a = b := by
  induction n generalizing a b with
  | zero => simpa using h
  | succ n ih =>
    rw [Function.iterate_succ_apply, Function.iterate_succ_apply] at h
    exact crc_update_step_injective ha hb
      (ih (crc_update_step_lt a) (crc_update_step_lt b) h)

/-- Two registers that differ still differ after the same data. -/
theorem crc_update_injective_crc (d n : Nat) {a b : Nat} (ha : a < 65536) (hb : b < 65536)
    (h : crc_update a d n = crc_update b d n) : a = b := by
  have hd : (d % 256) <<< 8 < 2 ^ 16 :=
    shiftLeft_lt_two_pow 8 (show d % 256 < 2 ^ 8 from Nat.mod_lt _ (by decide))
  have ha2 : a ^^^ ((d % 256) <<< 8) < 65536 := @Nat.xor_lt_two_pow _ _ 16 ha hd
  have hb2 : b ^^^ ((d % 256) <<< 8) < 65536 := @Nat.xor_lt_two_pow _ _ 16 hb hd
  unfold crc_update at h
  rw [Nat.mod_eq_of_lt ha2, Nat.mod_eq_of_lt hb2] at h
  exact Nat.xor_left_inj.mp (crc_update_step_iterate_injective n ha2 hb2 h)

/-- Two data bytes that differ leave different registers. -/
theorem crc_update_injective_data (n : Nat) {c d e : Nat} (hc : c < 65536)
    (h : crc_update c d n = crc_update c e n) : d % 256 = e % 256 := by
  have hd : (d % 256) <<< 8 < 2 ^ 16 :=
    shiftLeft_lt_two_pow 8 (show d % 256 < 2 ^ 8 from Nat.mod_lt _ (by decide))
  have he : (e % 256) <<< 8 < 2 ^ 16 :=
    shiftLeft_lt_two_pow 8 (show e % 256 < 2 ^ 8 from Nat.mod_lt _ (by decide))
  have hd2 : c ^^^ ((d % 256) <<< 8) < 65536 := @Nat.xor_lt_two_pow _ _ 16 hc hd
  have he2 : c ^^^ ((e % 256) <<< 8) < 65536 := @Nat.xor_lt_two_pow _ _ 16 hc he
  unfold crc_update at h
  rw [Nat.mod_eq_of_lt hd2, Nat.mod_eq_of_lt he2] at h
  have h2 := Nat.xor_right_inj.mp (crc_update_step_iterate_injective n hd2 he2 h)
  rw [Nat.shiftLeft_eq, Nat.shiftLeft_eq] at h2
  omega

/-- The register after a run of bytes determines the register before it. -/
theorem crc_foldl_injective (f : Ptr) (l : List Nat) {a b : Nat} (ha : a < 65536)
    (hb : b < 65536)
    (h : l.foldl (fun crc x => crc_update crc (f x) 8) a =
      l.foldl (fun crc x => crc_update crc (f x) 8) b) : a = b := by
  induction l generalizing a b with
  | nil => simpa using h
  | cons x l ih =>
    exact crc_update_injective_crc (f x) 8 ha hb (ih (crc_update_lt _ _ _) (crc_update_lt _ _ _) h)

/-- The CRC of a run of bytes depends only on the bytes of the run. -/
theorem crc_foldl_congr (f g : Ptr) (l : List Nat) (c : Nat) (h : ∀ x ∈ l, f x = g x) :
    l.foldl (fun crc x => crc_update crc (f x) 8) c =
      l.foldl (fun crc x => crc_update crc (g x) 8) c := by
  induction l generalizing c with
  | nil => simp only [List.foldl_nil]
  | cons x l ih =>
    have hx : f x = g x := h x (List.mem_cons_self x l)
    have hl : ∀ y ∈ l, f y = g y := fun y hy => h y (List.mem_cons_of_mem x hy)
    simp only [List.foldl_cons, hx]
    exact ih _ hl

/-- Two buffers that differ in exactly one byte of a run have different CRCs over it. -/
theorem crc_foldl_ne_of_byte_ne (f g : Ptr) (k : Nat) (hk : f k % 256 ≠ g k % 256)
    (hfg : ∀ x, x ≠ k → f x = g x) :
    ∀ (n s c : Nat), c < 65536 → s ≤ k → k < s + n →
      (List.range' s n).foldl (fun crc x => crc_update crc (f x) 8) c ≠
        (List.range' s n).foldl (fun crc x => crc_update crc (g x) 8) c
  | 0, s, c, _, h1, h2 => by omega
  | n + 1, s, c, hc, h1, h2 => by
    rw [List.range'_succ, List.foldl_cons, List.foldl_cons]
    by_cases hs : s = k
    · subst hs
      have h3 : crc_update c (f s) 8 ≠ crc_update c (g s) 8 :=
        fun h => hk (crc_update_injective_data 8 hc h)
      rw [← crc_foldl_congr f g (List.range' (s + 1) n) (crc_update c (g s) 8)
        (fun x hx => hfg x (by have := (List.mem_range'_1.mp hx).1; omega))]
      exact fun h => h3 (crc_foldl_injective f _ (crc_update_lt _ _ _) (crc_update_lt _ _ _) h)
    · rw [hfg s hs]
      exact crc_foldl_ne_of_byte_ne f g k hk hfg n (s + 1) _ (crc_update_lt _ _ _)
        (by omega) (by omega)

/-- Flipping one of the eight bits of a byte changes the byte. -/
theorem flip_bit_mod_ne (x : Nat) {i : Nat} (hi : i < 8) : x % 256 ≠ (x ^^^ (1 <<< i)) % 256 := by
  intro h
  have e : (256 : Nat) = 2 ^ 8 := by norm_num
  have h1 : (x % 256).testBit i = ((x ^^^ (1 <<< i)) % 256).testBit i := by rw [← h]
  rw [e, Nat.testBit_mod_two_pow, Nat.testBit_mod_two_pow, Nat.testBit_xor,
    Nat.testBit_shiftLeft] at h1
  simp [hi] at h1

end shockburst_packet

/-! ## The constructor -/

/-- A loop that stores `src[b]` at `dst[base + b]` for `b = 0 .. n-1`. -/
theorem foldl_update_range (base : Nat) (src : Ptr) :
    ∀ (n : Nat) (dst : Ptr) (i : Nat),
      ((List.range n).foldl (fun m b => Function.update m (base + b) (src b)) dst) i =
        if base ≤ i ∧ i < base + n then src (i - base) else dst i := by
  intro n
  induction n with
  | zero =>
    intro dst i
    have : ¬ (base ≤ i ∧ i < base + 0) := by omega
    rw [if_neg this]
    rfl
  | succ n ih =>
    intro dst i
    rw [List.range_succ, List.foldl_append, List.foldl_cons, List.foldl_nil]
    by_cases h : i = base + n
    · subst h
      have : base ≤ base + n ∧ base + n < base + (n + 1) := by omega
      simp [this]
    · rw [Function.update_noteq h, ih]
      by_cases h1 : base ≤ i ∧ i < base + n
      · have : base ≤ i ∧ i < base + (n + 1) := by omega
        rw [if_pos h1, if_pos this]
      · have : ¬ (base ≤ i ∧ i < base + (n + 1)) := by omega
        rw [if_neg h1, if_neg this]

namespace shockburst_packet

/-- The packet buffer before the CRC is calculated, byte by byte. -/
theorem assemble_apply (ind : Indet) (alen plen : Nat) (address payload : Ptr) (i : Nat) :
    assemble ind alen plen address payload i =
      if 1 + alen ≤ i ∧ i < 1 + alen + plen then payload (i - (1 + alen))
      else if 1 ≤ i ∧ i < 1 + alen then address (i - 1)
      else if i = 0 then (if address 0 &&& 0x80 = 0x80 then 0xAA else 0x55)
      else ind Site.m_packet_bytes i := by
  unfold assemble
  rw [foldl_update_range]
  by_cases h1 : 1 + alen ≤ i ∧ i < 1 + alen + plen
  · rw [if_pos h1, if_pos h1]
  · rw [if_neg h1, if_neg h1]
    unfold memcpy
    by_cases h2 : 1 ≤ i ∧ i < 1 + alen
    · rw [if_pos h2, if_pos h2, Nat.zero_add]
    · rw [if_neg h2, if_neg h2]
      by_cases h3 : i = 0
      · rw [if_pos h3, h3, Function.update_same]
      · rw [if_neg h3, Function.update_noteq h3]

/-- The block `m_crc` after the constructor, byte by byte. -/
theorem ctor_crc_apply (host : Endian) (ind : Indet) (alen plen clen : Nat)
    (address payload : Ptr) (i : Nat) :
    (ctor host ind alen plen clen address payload).crc i =
      if i < clen then
        uint16_ptr host ind (calculate_crc (assemble ind alen plen address payload) plen) i
      else ind Site.m_crc i := by
  simp only [ctor, crc, memcpy]
  by_cases h : i < clen
  · rw [if_pos h, if_pos ⟨Nat.zero_le i, by omega⟩, Nat.zero_add, Nat.sub_zero]
  · rw [if_neg h, if_neg (fun hh => h (by omega))]

/-- The assembled packet, byte by byte: the two CRC bytes stored over the buffer. -/
theorem ctor_bytes_apply (host : Endian) (ind : Indet) (alen plen clen : Nat)
    (address payload : Ptr) (i : Nat) :
    (ctor host ind alen plen clen address payload).bytes i =
      if i = 2 + alen + plen then (ctor host ind alen plen clen address payload).crc 1
      else if i = 1 + alen + plen then (ctor host ind alen plen clen address payload).crc 0
      else assemble ind alen plen address payload i := by
  simp only [ctor, crc, bytes]
  by_cases h1 : i = 2 + alen + plen
  · rw [if_pos h1, h1, Function.update_same]
  · rw [if_neg h1, Function.update_noteq h1]
    by_cases h2 : i = 1 + alen + plen
    · rw [if_pos h2, h2, Function.update_same]
    · rw [if_neg h2, Function.update_noteq h2]

/-- Below the CRC field the assembled packet is the buffer the CRC was calculated over. -/
theorem ctor_bytes_below_crc (host : Endian) (ind : Indet) (alen plen clen : Nat)
    (address payload : Ptr) {i : Nat} (hi : i < 1 + alen + plen) :
    (ctor host ind alen plen clen address payload).bytes i =
      assemble ind alen plen address payload i := by
  rw [ctor_bytes_apply, if_neg (by omega), if_neg (by omega)]

/-- The preamble byte chosen by the constructor. -/
theorem ctor_bytes_zero (host : Endian) (ind : Indet) (alen plen clen : Nat)
    (address payload : Ptr) :
    (ctor host ind alen plen clen address payload).bytes 0 =
      if address 0 &&& 0x80 = 0x80 then 0xAA else 0x55 := by
  have h1 : ¬ (1 + alen ≤ 0 ∧ 0 < 1 + alen + plen) := by omega
  have h2 : ¬ (1 ≤ 0 ∧ 0 < 1 + alen) := by omega
  rw [ctor_bytes_below_crc host ind alen plen clen address payload (by omega), assemble_apply,
    if_neg h1, if_neg h2, if_pos rfl]

/-- The address bytes inside the assembled packet. -/
theorem ctor_bytes_address (host : Endian) (ind : Indet) (alen plen clen : Nat)
    (address payload : Ptr) {i : Nat} (hi : i < alen) :
    (ctor host ind alen plen clen address payload).bytes (1 + i) = address i := by
  have h1 : ¬ (1 + alen ≤ 1 + i ∧ 1 + i < 1 + alen + plen) := by omega
  have h2 : 1 ≤ 1 + i ∧ 1 + i < 1 + alen := by omega
  rw [ctor_bytes_below_crc host ind alen plen clen address payload (by omega), assemble_apply,
    if_neg h1, if_pos h2, Nat.add_sub_cancel_left]

/-- The payload bytes inside the assembled packet. -/
theorem ctor_bytes_payload (host : Endian) (ind : Indet) (alen plen clen : Nat)
    (address payload : Ptr) {j : Nat} (hj : j < plen) :
    (ctor host ind alen plen clen address payload).bytes (1 + alen + j) = payload j := by
  have h1 : 1 + alen ≤ 1 + alen + j ∧ 1 + alen + j < 1 + alen + plen := by omega
  rw [ctor_bytes_below_crc host ind alen plen clen address payload (by omega), assemble_apply,
    if_pos h1, Nat.add_sub_cancel_left]

/-- The owned copy of the address. -/
theorem ctor_address (host : Endian) (ind : Indet) (alen plen clen : Nat)
    (address payload : Ptr) {i : Nat} (hi : i < alen) :
    (ctor host ind alen plen clen address payload).address i = address i := by
  simp [ctor, shockburst_packet.address, memcpy, hi]

/-- The owned copy of the payload. -/
theorem ctor_payload (host : Endian) (ind : Indet) (alen plen clen : Nat)
    (address payload : Ptr) {j : Nat} (hj : j < plen) :
    (ctor host ind alen plen clen address payload).payload j = payload j := by
  simp [ctor, shockburst_packet.payload, memcpy, hj]

/-- The length kept by the constructor. -/
theorem ctor_bytes_length (host : Endian) (ind : Indet) (alen plen clen : Nat)
    (address payload : Ptr) :
    (ctor host ind alen plen clen address payload).bytes_length =
      (1 + clen + alen + plen) % 256 := rfl

theorem ctor_payload_length (host : Endian) (ind : Indet) (alen plen clen : Nat)
    (address payload : Ptr) :
    (ctor host ind alen plen clen address payload).payload_length = plen := rfl

/-- The mask `0x80` leaves either `0x80` or `0`. -/
theorem and_0x80 (x : Nat) : (x &&& 0x80 = 0x80) ↔ x &&& 0x80 ≠ 0 := by
  have h := Nat.and_two_pow x 7
  have e : (0x80 : Nat) = 2 ^ 7 := by norm_num
  rw [e, h]
  cases x.testBit 7 <;> simp

/-- The CRC field the constructor stores for a 5-byte address and a 2-byte CRC: the register
runs over address and payload, then over the whole byte found in the fresh block right after
the payload, then over the top bit of that same byte. -/
theorem ctor_crc_field (host : Endian) (ind : Indet) (plen : Nat) (address payload : Ptr) :
    ((ctor host ind 5 plen 2 address payload).bytes (6 + plen),
        (ctor host ind 5 plen 2 address payload).bytes (7 + plen)) =
      uint16_object host
        (crc_update
          (crc_update
            ((List.range' 1 (5 + plen)).foldl
              (fun crc b => crc_update crc ((ctor host ind 5 plen 2 address payload).bytes b) 8)
              0xFFFF)
            (ind Site.m_packet_bytes (6 + plen)) 8)
          (ind Site.m_packet_bytes (6 + plen) &&& 0x80) 1) := by
  have hj : assemble ind 5 plen address payload (6 + plen) = ind Site.m_packet_bytes (6 + plen) := by
    rw [assemble_apply, if_neg (by omega), if_neg (by omega), if_neg (by omega)]
  have hfold : (List.range' 1 (5 + plen)).foldl
      (fun crc b => crc_update crc ((ctor host ind 5 plen 2 address payload).bytes b) 8) 0xFFFF =
      (List.range' 1 (5 + plen)).foldl
        (fun crc b => crc_update crc (assemble ind 5 plen address payload b) 8) 0xFFFF := by
    apply crc_foldl_congr
    intro x hx
    have := (List.mem_range'_1.mp hx).2
    exact ctor_bytes_below_crc host ind 5 plen 2 address payload (by omega)
  have hcrc : calculate_crc (assemble ind 5 plen address payload) plen =
      crc_update
        (crc_update
          ((List.range' 1 (5 + plen)).foldl
            (fun crc b => crc_update crc (assemble ind 5 plen address payload b) 8) 0xFFFF)
          (ind Site.m_packet_bytes (6 + plen)) 8)
        (ind Site.m_packet_bytes (6 + plen) &&& 0x80) 1 := by
    unfold calculate_crc
    have e : 6 + plen = (5 + plen) + 1 := by omega
    simp only []
    rw [hj]
    conv => lhs; rw [e, List.range'_concat, List.foldl_append, List.foldl_cons, List.foldl_nil]
    have e2 : 1 + 1 * (5 + plen) = 6 + plen := by omega
    rw [e2, hj, ← e]
  have h6 : (ctor host ind 5 plen 2 address payload).bytes (6 + plen) =
      (uint16_object host (calculate_crc (assemble ind 5 plen address payload) plen)).1 := by
    rw [ctor_bytes_apply, if_neg (by omega), if_pos (by omega), ctor_crc_apply,
      if_pos (by decide)]
    simp only [uint16_ptr, if_true]
  have h7 : (ctor host ind 5 plen 2 address payload).bytes (7 + plen) =
      (uint16_object host (calculate_crc (assemble ind 5 plen address payload) plen)).2 := by
    rw [ctor_bytes_apply, if_pos (by omega), ctor_crc_apply, if_pos (by decide)]
    simp only [uint16_ptr, if_true]
    rfl
  rw [h6, h7, hfold, ← hcrc]

end shockburst_packet

/-! ## The render step -/

namespace nordic_tx_impl

/-- The output loop, after `n` rounds. -/
theorem write_output_loop (src : Ptr) (len : Nat) :
    ∀ (n : Nat) (out : Ptr) (i : Nat), n ≤ len →
      ((List.range n).foldl
        (fun o b => Function.update (Function.update o b (src b)) (len * 2 + b) (src b)) out) i =
        if i < n then src i
        else if len * 2 ≤ i ∧ i < len * 2 + n then src (i - len * 2) else out i := by
  intro n
  induction n with
  | zero =>
    intro out i _
    have h1 : ¬ i < 0 := by omega
    have h2 : ¬ (len * 2 ≤ i ∧ i < len * 2 + 0) := by omega
    rw [if_neg h1, if_neg h2]
    rfl
  | succ n ih =>
    intro out i hn
    rw [List.range_succ, List.foldl_append, List.foldl_cons, List.foldl_nil]
    by_cases h : i = len * 2 + n
    · subst h
      have h1 : ¬ len * 2 + n < n + 1 := by omega
      have h2 : len * 2 ≤ len * 2 + n ∧ len * 2 + n < len * 2 + (n + 1) := by omega
      rw [Function.update_same, if_neg h1, if_pos h2]
      congr 1
      omega
    · rw [Function.update_noteq h]
      by_cases h' : i = n
      · subst h'
        rw [Function.update_same, if_pos (Nat.lt_succ_self i)]
      · rw [Function.update_noteq h', ih out i (by omega)]
        split_ifs <;> first | rfl | (exfalso; omega)

/-- What the output loop leaves in the target buffer. -/
theorem write_output_apply (packet : shockburst_packet) (out : Ptr) (i : Nat) :
    write_output packet out i =
      if i < packet.bytes_length then packet.bytes i
      else if packet.bytes_length * 2 ≤ i ∧ i < packet.bytes_length * 3
        then packet.bytes (i - packet.bytes_length * 2)
      else out i := by
  unfold write_output
  rw [write_output_loop packet.bytes packet.bytes_length packet.bytes_length out i (Nat.le_refl _)]
  have e : packet.bytes_length * 2 + packet.bytes_length = packet.bytes_length * 3 := by omega
  rw [e]

/-- The zero-fill loop, after `n` rounds. -/
theorem zero_loop (channel len : Nat) :
    ∀ (n : Nat) (os : Nat → Ptr) (c : Nat),
      ((List.range n).foldl
        (fun os c => if c ≠ channel then Function.update os c (memset (os c) 0 len) else os) os) c =
        if c < n ∧ c ≠ channel then memset (os c) 0 len else os c := by
  intro n
  induction n with
  | zero =>
    intro os c
    have h1 : ¬ (c < 0 ∧ c ≠ channel) := by omega
    rw [if_neg h1]
    rfl
  | succ n ih =>
    intro os c
    rw [List.range_succ, List.foldl_append, List.foldl_cons, List.foldl_nil]
    by_cases hn : n = channel
    · have h0 : ¬ n ≠ channel := not_not.mpr hn
      rw [if_neg h0, ih]
      split_ifs <;> first | rfl | (exfalso; omega)
    · rw [if_pos hn]
      by_cases hc : c = n
      · subst hc
        have h1 : ¬ (c < c ∧ c ≠ channel) := by omega
        have h2 : c < c + 1 ∧ c ≠ channel := ⟨Nat.lt_succ_self c, hn⟩
        rw [Function.update_same, ih, if_neg h1, if_pos h2]
      · rw [Function.update_noteq hc, ih]
        split_ifs <;> first | rfl | (exfalso; omega)

/-- What the zero-fill loop leaves in each buffer. -/
theorem zero_other_channels_apply (count channel : Nat) (packet : shockburst_packet)
    (os : Nat → Ptr) (c i : Nat) :
    zero_other_channels count channel packet os c i =
      if c < count ∧ c ≠ channel ∧ i < packet.bytes_length * 2 then 0 else os c i := by
  unfold zero_other_channels
  rw [zero_loop]
  by_cases h1 : c < count ∧ c ≠ channel
  · rw [if_pos h1]
    unfold memset
    by_cases h2 : i < packet.bytes_length * 2
    · rw [if_pos h2, if_pos ⟨h1.1, h1.2, h2⟩]
    · rw [if_neg h2, if_neg (fun h => h2 h.2.2)]
  · rw [if_neg h1, if_neg (fun h => h1 ⟨h.1, h.2.1⟩)]

/-- An idle tick. -/
theorem work_nil (host : Endian) (ind : Indet) (self : nordic_tx_impl) (n : Nat)
    (output_items : Nat → Ptr) (h : self.m_tx_queue = []) :
    work host ind self n output_items = { self := self, output_items := output_items, ret := 0 } := by
  unfold work
  rw [h]

/-- A rendering tick. -/
theorem work_cons (host : Endian) (ind : Indet) (self : nordic_tx_impl) (n : Nat)
    (output_items : Nat → Ptr) (vec : List Nat) (rest : List (List Nat))
    (h : self.m_tx_queue = vec :: rest) :
    work host ind self n output_items =
      { self := { self with m_tx_queue := rest }
        output_items := zero_other_channels self.m_channel_count (blob_ptr ind vec 0)
          (build_packet host ind (blob_ptr ind vec))
          (Function.update output_items (blob_ptr ind vec 0)
            (write_output (build_packet host ind (blob_ptr ind vec))
              (output_items (blob_ptr ind vec 0))))
        ret := deleted_bytes_length ind * 2 } := by
  unfold work
  rw [h]

/-- The target buffer after a rendering tick. -/
theorem work_target_buffer (host : Endian) (ind : Indet) (self : nordic_tx_impl) (n : Nat)
    (output_items : Nat → Ptr) (vec : List Nat) (rest : List (List Nat))
    (h : self.m_tx_queue = vec :: rest) (i : Nat) :
    (work host ind self n output_items).output_items (blob_ptr ind vec 0) i =
      if i < (build_packet host ind (blob_ptr ind vec)).bytes_length
        then (build_packet host ind (blob_ptr ind vec)).bytes i
      else if (build_packet host ind (blob_ptr ind vec)).bytes_length * 2 ≤ i ∧
          i < (build_packet host ind (blob_ptr ind vec)).bytes_length * 3
        then (build_packet host ind (blob_ptr ind vec)).bytes
          (i - (build_packet host ind (blob_ptr ind vec)).bytes_length * 2)
      else output_items (blob_ptr ind vec 0) i := by
  rw [work_cons host ind self n output_items vec rest h]
  simp only []
  rw [zero_other_channels_apply, if_neg (fun hh => hh.2.1 rfl), Function.update_same,
    write_output_apply]

/-- The other buffers after a rendering tick. -/
theorem work_other_buffer (host : Endian) (ind : Indet) (self : nordic_tx_impl) (n : Nat)
    (output_items : Nat → Ptr) (vec : List Nat) (rest : List (List Nat))
    (h : self.m_tx_queue = vec :: rest) (c i : Nat) (hc : c ≠ blob_ptr ind vec 0) :
    (work host ind self n output_items).output_items c i =
      if c < self.m_channel_count ∧
          i < (build_packet host ind (blob_ptr ind vec)).bytes_length * 2 then 0
      else output_items c i := by
  rw [work_cons host ind self n output_items vec rest h]
  simp only []
  rw [zero_other_channels_apply, Function.update_noteq hc]
  by_cases h1 : c < self.m_channel_count ∧
      i < (build_packet host ind (blob_ptr ind vec)).bytes_length * 2
  · rw [if_pos h1, if_pos ⟨h1.1, hc, h1.2⟩]
  · rw [if_neg h1, if_neg (fun hh => h1 ⟨hh.1, hh.2.2⟩)]

end nordic_tx_impl

/-! ## The claims -/

/-- The two copies of `crc_update` in the sources are the same function. -/
theorem nordic_tx_impl_crc_update_eq (crc data bits : Nat) :
    nordic_tx_impl.crc_update crc data bits = shockburst_packet.crc_update crc data bits := rfl

/-- C1: for every byte sequence, folding `crc_update(crc, byte, 8)` over the sequence from
`crc = 0xFFFF` gives its CRC-16/CCITT value (polynomial `0x1021`, initial value `0xFFFF`,
most significant bit first, no reflection, no final XOR), the remainder of a polynomial
division over GF(2); this holds for the copy of `crc_update` in `shockburst_packet` and for
the one in `nordic_tx_impl`. -/
theorem crc_update_fold_is_crc16_ccitt (bytes : List Nat) (h : ∀ b ∈ bytes, b < 256) :
    bytes.foldl (fun crc b => shockburst_packet.crc_update crc b 8) 0xFFFF = crc16_ccitt bytes ∧
      bytes.foldl (fun crc b => nordic_tx_impl.crc_update crc b 8) 0xFFFF = crc16_ccitt bytes := by
  refine ⟨crc_update_foldl_eq_crc16_ccitt bytes h, ?_⟩
  simp only [nordic_tx_impl_crc_update_eq]
  exact crc_update_foldl_eq_crc16_ccitt bytes h

/-- C1 at the ASCII bytes of `"123456789"`: both folds give `0x29B1`. -/
theorem crc_update_fold_is_crc16_ccitt_witness :
    (∀ b ∈ check_string, b < 256) ∧
      check_string.foldl (fun crc b => shockburst_packet.crc_update crc b 8) 0xFFFF = 0x29B1 ∧
      check_string.foldl (fun crc b => nordic_tx_impl.crc_update crc b 8) 0xFFFF = 0x29B1 :=
  ⟨by decide,
    (crc_update_fold_is_crc16_ccitt check_string (by decide)).1.trans (by decide!),
    (crc_update_fold_is_crc16_ccitt check_string (by decide)).2.trans (by decide!)⟩

/-- C2 as stated fails: with `crc_length = 1` (address length 5, payload length 11) the
constructor keeps the length 18, not `1 + 5 + 11 + 2 = 19`; and with address and payload
lengths 255 the 8-bit length field keeps 1, not 513. -/
theorem ctor_bytes_length_counterexample :
    ¬ ((shockburst_packet.ctor Endian.little zero_mem 5 11 1 sample_address
          sample_payload).bytes_length = 1 + 5 + 11 + 2) ∧
      ¬ ((shockburst_packet.ctor Endian.little zero_mem 255 255 2 (ptr_of []) (ptr_of [])).bytes_length
          = 1 + 255 + 255 + 2) := by
  constructor <;> decide

/-- C2, amended: when the total `1 + crc_length + address_length + payload_length` is at
most 255, `bytes_length()` is `1 + address_length + payload_length + crc_length`; it is
`1 + address_length + payload_length + 2` exactly when `crc_length` is 2. -/
theorem ctor_bytes_length_eq (host : Endian) (ind : Indet) (alen plen clen : Nat)
    (address payload : Ptr) (hfit : 1 + clen + alen + plen ≤ 255) :
    (shockburst_packet.ctor host ind alen plen clen address payload).bytes_length =
        1 + alen + plen + clen ∧
      ((shockburst_packet.ctor host ind alen plen clen address payload).bytes_length =
        1 + alen + plen + 2 ↔ clen = 2) := by
  rw [shockburst_packet.ctor_bytes_length, Nat.mod_eq_of_lt (by omega)]
  constructor <;> omega

/-- C2, amended, at address length 5, payload length 11 and CRC length 1: the length is 18. -/
theorem ctor_bytes_length_eq_witness :
    1 + 1 + 5 + 11 ≤ 255 ∧
      (shockburst_packet.ctor Endian.little zero_mem 5 11 1 sample_address
          sample_payload).bytes_length = 1 + 5 + 11 + 1 :=
  ⟨by decide,
    (ctor_bytes_length_eq Endian.little zero_mem 5 11 1 sample_address sample_payload
      (by decide)).1⟩

/-- C3: byte 0 of the assembled packet is `0xAA` exactly when `address[0] & 0x80` is not
zero, and `0x55` exactly when it is zero; it is never anything else.  This holds for every
input of the constructor, of any address length. -/
theorem ctor_preamble (host : Endian) (ind : Indet) (alen plen clen : Nat)
    (address payload : Ptr) :
    ((shockburst_packet.ctor host ind alen plen clen address payload).bytes 0 = 0xAA ↔
        address 0 &&& 0x80 ≠ 0) ∧
      ((shockburst_packet.ctor host ind alen plen clen address payload).bytes 0 = 0x55 ↔
        address 0 &&& 0x80 = 0) ∧
      ((shockburst_packet.ctor host ind alen plen clen address payload).bytes 0 = 0xAA ∨
        (shockburst_packet.ctor host ind alen plen clen address payload).bytes 0 = 0x55) := by
  rw [shockburst_packet.ctor_bytes_zero]
  by_cases h : address 0 &&& 0x80 = 0x80
  · have h' : address 0 &&& 0x80 ≠ 0 := (shockburst_packet.and_0x80 _).mp h
    rw [if_pos h]
    exact ⟨⟨fun _ => h', fun _ => rfl⟩, ⟨fun hh => absurd hh (by decide), fun hh => absurd hh h'⟩,
      Or.inl rfl⟩
  · have h' : address 0 &&& 0x80 = 0 := by
      by_contra hne
      exact h ((shockburst_packet.and_0x80 _).mpr hne)
    rw [if_neg h]
    exact ⟨⟨fun hh => absurd hh (by decide), fun hh => absurd h' hh⟩, ⟨fun _ => h', fun _ => rfl⟩,
      Or.inr rfl⟩

/-- C4 fails on the code.  For the sample address and payload (address length 5, payload
length 11, CRC length 2, little-endian machine, fresh storage all zero) the register after
the 16 address and payload bytes is `0x21D8` and the claimed CRC is `0x43B0` (or `0x5391`
when the trailing bit is taken from the byte finally stored at offset 17); the constructor
stores `A7 C8`, which is neither value in either byte order, because its loop
`b < 7 + m_payload_length` also runs over offset 17, the first CRC slot of the fresh block.
With the fresh block filled with `0x5A` instead, the same address and payload give `F8 2F`. -/
theorem ctor_crc_reads_unwritten_byte :
    (List.range' 1 (5 + 11)).foldl
        (fun crc b => shockburst_packet.crc_update crc
          ((shockburst_packet.ctor Endian.little zero_mem 5 11 2 sample_address
            sample_payload).bytes b) 8) 0xFFFF = 0x21D8 ∧
      shockburst_packet.crc_update 0x21D8 (zero_mem Site.m_packet_bytes 17 &&& 0x80) 1 = 0x43B0 ∧
      shockburst_packet.crc_update 0x21D8
        ((shockburst_packet.ctor Endian.little zero_mem 5 11 2 sample_address
          sample_payload).bytes 17 &&& 0x80) 1 = 0x5391 ∧
      (shockburst_packet.ctor Endian.little zero_mem 5 11 2 sample_address
        sample_payload).bytes 17 = 0xA7 ∧
      (shockburst_packet.ctor Endian.little zero_mem 5 11 2 sample_address
        sample_payload).bytes 18 = 0xC8 ∧
      (shockburst_packet.ctor Endian.little (fill_mem 0x5A) 5 11 2 sample_address
        sample_payload).bytes 17 = 0xF8 ∧
      (shockburst_packet.ctor Endian.little (fill_mem 0x5A) 5 11 2 sample_address
        sample_payload).bytes 18 = 0x2F := by
  decide!

/-- C5: the assembled packet holds the address bytes at offsets `1 .. address_length` and
the payload bytes right after them, and `address()` and `payload()` hold the input bytes,
for every input of the constructor. -/
theorem ctor_layout (host : Endian) (ind : Indet) (alen plen clen : Nat)
    (address payload : Ptr) :
    (∀ i, i < alen →
        (shockburst_packet.ctor host ind alen plen clen address payload).bytes (1 + i) =
          address i) ∧
      (∀ j, j < plen →
        (shockburst_packet.ctor host ind alen plen clen address payload).bytes (1 + alen + j) =
          payload j) ∧
      (∀ i, i < alen →
        (shockburst_packet.ctor host ind alen plen clen address payload).address i = address i) ∧
      (∀ j, j < plen →
        (shockburst_packet.ctor host ind alen plen clen address payload).payload j = payload j) :=
  ⟨fun _ hi => shockburst_packet.ctor_bytes_address host ind alen plen clen address payload hi,
    fun _ hj => shockburst_packet.ctor_bytes_payload host ind alen plen clen address payload hj,
    fun _ hi => shockburst_packet.ctor_address host ind alen plen clen address payload hi,
    fun _ hj => shockburst_packet.ctor_payload host ind alen plen clen address payload hj⟩

/-- The register after the sample address and payload, whatever else the frame holds. -/
theorem sample_crc : (List.range' 1 (5 + 11)).foldl
    (fun crc b => shockburst_packet.crc_update crc (sample_frame b) 8) 0xFFFF = 0x21D8 := by
  decide!

/-- The packet assembled from the sample address and payload agrees with the sample frame
on the address and payload bytes. -/
theorem ctor_sample_bytes (host : Endian) (ind : Indet) {x : Nat} (h1 : 1 ≤ x) (h2 : x < 17) :
    (shockburst_packet.ctor host ind 5 11 2 sample_address sample_payload).bytes x =
      sample_frame x := by
  rw [shockburst_packet.ctor_bytes_below_crc host ind 5 11 2 sample_address sample_payload
    (by omega), shockburst_packet.assemble_apply]
  by_cases h : 1 + 5 ≤ x ∧ x < 1 + 5 + 11
  · rw [if_pos h]
    obtain ⟨ha, hb⟩ := h
    interval_cases x <;> rfl
  · rw [if_neg h, if_pos (by omega)]
    have hx : x < 6 := by omega
    interval_cases x <;> rfl

/-- Only the low eight bits of the data reach the register. -/
theorem crc_update_mod_data (c d n : Nat) :
    shockburst_packet.crc_update c (d % 256) n = shockburst_packet.crc_update c d n := by
  unfold shockburst_packet.crc_update
  rw [Nat.mod_mod]

/-- The mask `0x80` reads bit 7, which a reduction modulo 256 keeps. -/
theorem and_0x80_mod (d : Nat) : d % 256 &&& 0x80 = d &&& 0x80 := by
  have e : (0x80 : Nat) = 2 ^ 7 := by norm_num
  have e2 : (256 : Nat) = 2 ^ 8 := by norm_num
  rw [e, e2, Nat.and_two_pow, Nat.and_two_pow, Nat.testBit_mod_two_pow]
  simp

/-- No byte value after the payload makes the constructor store the CRC that the parser
wants for the sample address and payload. -/
theorem sample_crc_field_ne (host : Endian) (j : Nat) :
    uint16_object host
        (shockburst_packet.crc_update (shockburst_packet.crc_update 0x21D8 j 8) (j &&& 0x80) 1) ≠
      (0x21D8 / 256, 0x21D8 % 256) := by
  have hall : ∀ k, k < 256 →
      uint16_object Endian.little
          (shockburst_packet.crc_update (shockburst_packet.crc_update 0x21D8 k 8) (k &&& 0x80) 1) ≠
        (0x21D8 / 256, 0x21D8 % 256) ∧
      uint16_object Endian.big
          (shockburst_packet.crc_update (shockburst_packet.crc_update 0x21D8 k 8) (k &&& 0x80) 1) ≠
        (0x21D8 / 256, 0x21D8 % 256) := by
    decide!
  have := hall (j % 256) (Nat.mod_lt _ (by decide))
  rw [crc_update_mod_data, and_0x80_mod] at this
  cases host
  · exact this.1
  · exact this.2

/-- C6 fails on the code.  For the sample 5-byte address and 11-byte payload (CRC length 2)
`try_parse` returns `false` on the bytes the constructor assembled, on a little-endian and
on a big-endian machine, whatever is found in the storage the constructor reads without
having written it. -/
theorem round_trip_fails (host : Endian) (ind : Indet) (sh : Ptr) :
    shockburst_packet.try_parse host ind
      (shockburst_packet.ctor host ind 5 11 2 sample_address sample_payload).bytes sh 5 2 =
      none := by
  have hfold : (List.range' 1 (5 + 11)).foldl
      (fun crc b => shockburst_packet.crc_update crc
        ((shockburst_packet.ctor host ind 5 11 2 sample_address sample_payload).bytes b) 8)
      0xFFFF = 0x21D8 := by
    rw [← sample_crc]
    apply shockburst_packet.crc_foldl_congr
    intro x hx
    have := List.mem_range'_1.mp hx
    exact ctor_sample_bytes host ind (by omega) (by omega)
  have hfield := shockburst_packet.ctor_crc_field host ind 11 sample_address sample_payload
  rw [hfold] at hfield
  rw [← Option.not_isSome_iff_eq_none, shockburst_packet.try_parse_isSome_iff, hfold]
  intro h
  apply sample_crc_field_ne host (ind Site.m_packet_bytes (6 + 11))
  rw [← hfield, Prod.mk.injEq]
  exact h

/-- C7: when `try_parse` accepts a buffer, it rejects the buffer obtained by flipping any
single bit of any byte at offsets `1 .. address_length + 11` (the address and payload
region), for every address length. -/
theorem try_parse_rejects_bit_flip (host : Endian) (ind : Indet) (buf sh : Ptr)
    (alen clen k i : Nat)
    (hacc : (shockburst_packet.try_parse host ind buf sh alen clen).isSome = true)
    (hk1 : 1 ≤ k) (hk2 : k ≤ alen + 11) (hi : i < 8) :
    shockburst_packet.try_parse host ind (Function.update buf k (buf k ^^^ (1 <<< i))) sh alen
      clen = none := by
  rw [← Option.not_isSome_iff_eq_none, shockburst_packet.try_parse_isSome_iff]
  rw [shockburst_packet.try_parse_isSome_iff] at hacc
  rw [Function.update_noteq (by omega), Function.update_noteq (by omega)]
  intro h
  have hne := shockburst_packet.crc_foldl_ne_of_byte_ne buf
    (Function.update buf k (buf k ^^^ (1 <<< i))) k
    (by rw [Function.update_same]; exact shockburst_packet.flip_bit_mod_ne (buf k) hi)
    (fun x hx => (Function.update_noteq hx _ _).symm)
    (alen + 11) 1 0xFFFF (by decide) hk1 (by omega)
  apply hne
  have h1 := hacc.1.symm.trans h.1
  have h2 := hacc.2.symm.trans h.2
  rw [← Nat.div_add_mod
      ((List.range' 1 (alen + 11)).foldl
        (fun crc b => shockburst_packet.crc_update crc (buf b) 8) 0xFFFF) 256,
    ← Nat.div_add_mod
      ((List.range' 1 (alen + 11)).foldl
        (fun crc b => shockburst_packet.crc_update crc
          (Function.update buf k (buf k ^^^ (1 <<< i)) b) 8) 0xFFFF) 256,
    h1, h2]

/-- C7 at the sample frame: it is accepted, and rejected once bit 0 of the byte at offset 3
is flipped. -/
theorem try_parse_rejects_bit_flip_witness :
    ((shockburst_packet.try_parse Endian.little zero_mem sample_frame sample_frame 5 2).isSome =
        true ∧ 1 ≤ 3 ∧ 3 ≤ 5 + 11 ∧ 0 < 8) ∧
      shockburst_packet.try_parse Endian.little zero_mem
        (Function.update sample_frame 3 (sample_frame 3 ^^^ (1 <<< 0))) sample_frame 5 2 = none :=
  ⟨⟨by decide!, by decide, by decide, by decide⟩,
    try_parse_rejects_bit_flip Endian.little zero_mem sample_frame sample_frame 5 2 3 0
      (by decide!) (by decide) (by decide) (by decide)⟩

/-- C8: `try_parse` returns `true` exactly when the bytes at offsets `1 + address_length + 11`
and `2 + address_length + 11` are, in that order, the high byte and the low byte of the CRC
obtained from `0xFFFF` by `crc_update(crc, byte, 8)` over the bytes at offsets
`1 .. address_length + 11`; the outcome is the same for every `crc_length`, and on either
kind of machine. -/
theorem try_parse_true_iff (host : Endian) (ind : Indet) (buf sh : Ptr) (alen clen : Nat) :
    ((shockburst_packet.try_parse host ind buf sh alen clen).isSome = true ↔
        (buf (1 + alen + 11) =
            (List.range' 1 (alen + 11)).foldl
              (fun crc b => shockburst_packet.crc_update crc (buf b) 8) 0xFFFF / 256 ∧
          buf (2 + alen + 11) =
            (List.range' 1 (alen + 11)).foldl
              (fun crc b => shockburst_packet.crc_update crc (buf b) 8) 0xFFFF % 256)) ∧
      (∀ (host' : Endian) (ind' : Indet) (sh' : Ptr) (clen' : Nat),
        (shockburst_packet.try_parse host' ind' buf sh' alen clen').isSome =
          (shockburst_packet.try_parse host ind buf sh alen clen).isSome) := by
  refine ⟨shockburst_packet.try_parse_isSome_iff host ind buf sh alen clen, ?_⟩
  intro host' ind' sh' clen'
  rw [Bool.eq_iff_iff, shockburst_packet.try_parse_isSome_iff,
    shockburst_packet.try_parse_isSome_iff]

/-- C9: when `try_parse` returns `true`, the packet it returns has `payload_length() == 11`,
`address()` holds the buffer bytes at offsets `1 .. address_length`, and `payload()` holds
the 11 buffer bytes at offsets `1 + address_length .. address_length + 11`. -/
theorem try_parse_packet (host : Endian) (ind : Indet) (buf sh : Ptr) (alen clen : Nat)
    (p : shockburst_packet)
    (h : shockburst_packet.try_parse host ind buf sh alen clen = some p) :
    p.payload_length = 11 ∧
      (∀ i, i < alen → p.address i = buf (1 + i)) ∧
      (∀ j, j < 11 → p.payload j = buf (1 + alen + j)) := by
  rw [shockburst_packet.try_parse_eq_some host ind buf sh alen clen p h]
  refine ⟨rfl, ?_, ?_⟩
  · intro i hi
    rw [shockburst_packet.ctor_address host ind alen 11 clen _ _ hi]
    simp only [memcpy]
    rw [if_pos ⟨Nat.zero_le i, by omega⟩, Nat.sub_zero]
  · intro j hj
    rw [shockburst_packet.ctor_payload host ind alen 11 clen _ _ hj]
    simp only [memcpy]
    rw [if_pos ⟨Nat.zero_le j, by omega⟩, Nat.sub_zero]

/-- C9 at the sample frame: the packet parsed from it has payload length 11, its address
starts with `0xE7` and its payload with `1`. -/
theorem try_parse_packet_witness :
    ∃ p, shockburst_packet.try_parse Endian.little zero_mem sample_frame sample_frame 5 2 =
        some p ∧
      p.payload_length = 11 ∧ p.address 0 = 0xE7 ∧ p.payload 0 = 1 := by
  have hs : (shockburst_packet.try_parse Endian.little zero_mem sample_frame sample_frame 5
      2).isSome = true := by decide!
  obtain ⟨p, hp⟩ := Option.isSome_iff_exists.mp hs
  have h := try_parse_packet Endian.little zero_mem sample_frame sample_frame 5 2 p hp
  exact ⟨p, hp, h.1, (h.2.1 0 (by decide)).trans rfl, (h.2.2 0 (by decide)).trans rfl⟩

/-- The value returned by a rendering tick: twice the byte read from the deleted packet. -/
theorem work_ret_cons (host : Endian) (ind : Indet) (self : nordic_tx_impl) (n : Nat)
    (output_items : Nat → Ptr) (vec : List Nat) (rest : List (List Nat))
    (h : self.m_tx_queue = vec :: rest) :
    (nordic_tx_impl.work host ind self n output_items).ret =
      nordic_tx_impl.deleted_bytes_length ind * 2 := by
  rw [nordic_tx_impl.work_cons host ind self n output_items vec rest h]

/-- C10 fails on the code.  With four channels and the sample request for channel 2 queued,
the packet has length `L = 11`; after one call of `work` the target buffer holds the packet
bytes at `[0, 11)` and at `[22, 33)` and the buffers of channels 0, 1 and 3 hold 22 zero
bytes, but the value returned is not `2L = 22`: it is twice the byte found in the storage of
the packet object after `delete packet`, 0 when that byte is 0 and 14 when it is 7. -/
theorem work_returns_deleted_length :
    (nordic_tx_impl.build_packet Endian.little zero_mem
        (nordic_tx_impl.blob_ptr zero_mem sample_blob)).bytes_length = 11 ∧
      (List.range 11).all (fun b =>
        decide ((nordic_tx_impl.work Endian.little zero_mem
            { m_channel_count := 4, m_tx_queue := [sample_blob] } 4096
            sample_outputs).output_items 2 b =
          (nordic_tx_impl.build_packet Endian.little zero_mem
            (nordic_tx_impl.blob_ptr zero_mem sample_blob)).bytes b) &&
        decide ((nordic_tx_impl.work Endian.little zero_mem
            { m_channel_count := 4, m_tx_queue := [sample_blob] } 4096
            sample_outputs).output_items 2 (22 + b) =
          (nordic_tx_impl.build_packet Endian.little zero_mem
            (nordic_tx_impl.blob_ptr zero_mem sample_blob)).bytes b)) = true ∧
      (List.range 22).all (fun i =>
        [0, 1, 3].all (fun c =>
          decide ((nordic_tx_impl.work Endian.little zero_mem
            { m_channel_count := 4, m_tx_queue := [sample_blob] } 4096
            sample_outputs).output_items c i = 0))) = true ∧
      (nordic_tx_impl.work Endian.little zero_mem
        { m_channel_count := 4, m_tx_queue := [sample_blob] } 4096 sample_outputs).ret = 0 ∧
      (nordic_tx_impl.build_packet Endian.little (fill_mem 7)
        (nordic_tx_impl.blob_ptr (fill_mem 7) sample_blob)).bytes_length = 11 ∧
      (nordic_tx_impl.work Endian.little (fill_mem 7)
        { m_channel_count := 4, m_tx_queue := [sample_blob] } 4096 sample_outputs).ret = 14 := by
  decide!

/-! ## Ticks -/

namespace nordic_tx_impl

end nordic_tx_impl

/-- C11: after a rendering tick for a packet of length `L` and target channel `ch`, the
bytes of the target buffer at offsets `[L, 2L)` and at offsets `>= 3L`, and the bytes of
every other buffer at offsets `>= 2L`, are what they were before the tick. -/
theorem work_frame (host : Endian) (ind : Indet) (self : nordic_tx_impl) (n : Nat)
    (out : Nat → Ptr) (vec : List Nat) (rest : List (List Nat))
    (h : self.m_tx_queue = vec :: rest) :
    (∀ i,
        ((nordic_tx_impl.build_packet host ind (nordic_tx_impl.blob_ptr ind vec)).bytes_length ≤ i ∧
            i < 2 * (nordic_tx_impl.build_packet host ind
              (nordic_tx_impl.blob_ptr ind vec)).bytes_length) ∨
          3 * (nordic_tx_impl.build_packet host ind
            (nordic_tx_impl.blob_ptr ind vec)).bytes_length ≤ i →
        (nordic_tx_impl.work host ind self n out).output_items
            (nordic_tx_impl.blob_ptr ind vec 0) i =
          out (nordic_tx_impl.blob_ptr ind vec 0) i) ∧
      (∀ c i, c ≠ nordic_tx_impl.blob_ptr ind vec 0 →
        2 * (nordic_tx_impl.build_packet host ind
          (nordic_tx_impl.blob_ptr ind vec)).bytes_length ≤ i →
        (nordic_tx_impl.work host ind self n out).output_items c i = out c i) := by
  constructor
  · intro i hi
    rw [nordic_tx_impl.work_target_buffer host ind self n out vec rest h i]
    rw [if_neg (by omega), if_neg (by omega)]
  · intro c i hc hi
    rw [nordic_tx_impl.work_other_buffer host ind self n out vec rest h c i hc]
    rw [if_neg (by omega)]

/-- C11 at the sample request (channel 2, `L = 11`): after the tick the target buffer still
holds `0xFF` at offsets 11, 21 and 33, and buffer 0 still holds `0xFF` at offset 22. -/
theorem work_frame_witness :
    (nordic_tx_impl.work Endian.little zero_mem
        { m_channel_count := 4, m_tx_queue := [sample_blob] } 4096 sample_outputs).output_items
        2 11 = 0xFF ∧
      (nordic_tx_impl.work Endian.little zero_mem
        { m_channel_count := 4, m_tx_queue := [sample_blob] } 4096 sample_outputs).output_items
        2 21 = 0xFF ∧
      (nordic_tx_impl.work Endian.little zero_mem
        { m_channel_count := 4, m_tx_queue := [sample_blob] } 4096 sample_outputs).output_items
        2 33 = 0xFF ∧
      (nordic_tx_impl.work Endian.little zero_mem
        { m_channel_count := 4, m_tx_queue := [sample_blob] } 4096 sample_outputs).output_items
        0 22 = 0xFF :=
  ⟨(work_frame Endian.little zero_mem { m_channel_count := 4, m_tx_queue := [sample_blob] }
      4096 sample_outputs sample_blob [] rfl).1 11 (Or.inl (by decide!)),
    (work_frame Endian.little zero_mem { m_channel_count := 4, m_tx_queue := [sample_blob] }
      4096 sample_outputs sample_blob [] rfl).1 21 (Or.inl (by decide!)),
    (work_frame Endian.little zero_mem { m_channel_count := 4, m_tx_queue := [sample_blob] }
      4096 sample_outputs sample_blob [] rfl).1 33 (Or.inr (by decide!)),
    (work_frame Endian.little zero_mem { m_channel_count := 4, m_tx_queue := [sample_blob] }
      4096 sample_outputs sample_blob [] rfl).2 0 22 (by decide!) (by decide!)⟩

/-- C12: when the transmit queue is empty, `work` returns 0, leaves every byte of every
output buffer as it was, and leaves the block, with its empty queue, as it was, for every
channel count and every budget. -/
theorem work_idle (host : Endian) (ind : Indet) (self : nordic_tx_impl) (n : Nat)
    (out : Nat → Ptr) (h : self.m_tx_queue = []) :
    (nordic_tx_impl.work host ind self n out).ret = 0 ∧
      (∀ c i, (nordic_tx_impl.work host ind self n out).output_items c i = out c i) ∧
      (nordic_tx_impl.work host ind self n out).self = self ∧
      (nordic_tx_impl.work host ind self n out).self.m_tx_queue = [] := by
  rw [nordic_tx_impl.work_nil host ind self n out h]
  exact ⟨rfl, fun _ _ => rfl, rfl, h⟩

/-- C12 at a block with four channels and an empty queue, with budget 4096. -/
theorem work_idle_witness :
    (nordic_tx_impl.work Endian.little zero_mem { m_channel_count := 4, m_tx_queue := [] } 4096
        sample_outputs).ret = 0 ∧
      (nordic_tx_impl.work Endian.little zero_mem { m_channel_count := 4, m_tx_queue := [] } 4096
        sample_outputs).output_items 2 0 = 0xFF ∧
      (nordic_tx_impl.work Endian.little zero_mem { m_channel_count := 4, m_tx_queue := [] } 4096
        sample_outputs).self.m_tx_queue = [] :=
  ⟨(work_idle Endian.little zero_mem { m_channel_count := 4, m_tx_queue := [] } 4096
      sample_outputs rfl).1,
    (work_idle Endian.little zero_mem { m_channel_count := 4, m_tx_queue := [] } 4096
      sample_outputs rfl).2.1 2 0,
    (work_idle Endian.little zero_mem { m_channel_count := 4, m_tx_queue := [] } 4096
      sample_outputs rfl).2.2.2⟩

/-- C16 as stated fails: with the sample request queued (`L = 11`), a budget of 10 items and
the storage of the deleted packet still holding the length, `work` returns `22 = 2L`. -/
theorem work_exceeds_budget :
    ¬ ((nordic_tx_impl.work Endian.little (poke zero_mem Site.deleted_packet 0 11)
          { m_channel_count := 4, m_tx_queue := [sample_blob] } 10 sample_outputs).ret ≤ 10) ∧
      (nordic_tx_impl.work Endian.little (poke zero_mem Site.deleted_packet 0 11)
          { m_channel_count := 4, m_tx_queue := [sample_blob] } 10 sample_outputs).ret =
        2 * (nordic_tx_impl.build_packet Endian.little (poke zero_mem Site.deleted_packet 0 11)
          (nordic_tx_impl.blob_ptr (poke zero_mem Site.deleted_packet 0 11)
            sample_blob)).bytes_length := by
  decide!

/-- C16, amended: `work` does not consult the budget: for every two budgets a call leaves
the same block and the same output buffers and returns the same value; an idle tick returns
0, which is within every budget. -/
theorem work_ignores_budget (host : Endian) (ind : Indet) (self : nordic_tx_impl) (n : Nat)
    (out : Nat → Ptr) :
    (∀ n', nordic_tx_impl.work host ind self n out = nordic_tx_impl.work host ind self n' out) ∧
      (self.m_tx_queue = [] → (nordic_tx_impl.work host ind self n out).ret = 0 ∧
        (nordic_tx_impl.work host ind self n out).ret ≤ n) := by
  constructor
  · intro n'
    cases hq : self.m_tx_queue with
    | nil =>
      rw [nordic_tx_impl.work_nil host ind self n out hq,
        nordic_tx_impl.work_nil host ind self n' out hq]
    | cons vec rest =>
      rw [nordic_tx_impl.work_cons host ind self n out vec rest hq,
        nordic_tx_impl.work_cons host ind self n' out vec rest hq]
  · intro h
    rw [nordic_tx_impl.work_nil host ind self n out h]
    exact ⟨rfl, Nat.zero_le n⟩

/-! ## Reads outside the blob and outside the packet block -/

/-- An offset at or past the end of the blob vector is read from what follows its storage. -/
theorem blob_ptr_past_end (ind : Indet) (vec : List Nat) {i : Nat} (h : vec.length ≤ i) :
    nordic_tx_impl.blob_ptr ind vec i = ind Site.blob_end (i - vec.length) := by
  unfold nordic_tx_impl.blob_ptr
  rw [List.getD_eq_getElem?_getD, List.getElem?_eq_none h]
  rfl

/-- With a 2-byte CRC, every offset the constructor touches lies inside the block it
allocated exactly when the address has at least 4 bytes. -/
theorem accesses_in_bounds_iff (alen plen : Nat) :
    (∀ o ∈ shockburst_packet.accesses alen plen, o < shockburst_packet.allocated alen plen 2) ↔
      4 ≤ alen := by
  unfold shockburst_packet.accesses shockburst_packet.allocated
  constructor
  · intro h
    have := h (6 + plen) (by simp)
    omega
  · intro h o ho
    simp only [List.mem_append, List.mem_singleton, List.mem_map, List.mem_range,
      List.mem_range'_1, List.mem_cons, List.not_mem_nil, or_false] at ho
    rcases ho with ((((h0 | ⟨i, hi, rfl⟩) | ⟨b, hb, rfl⟩) | ⟨h1, h2⟩) | h3) | h4 | h5 <;> omega

/-- C14 fails on the code.  The request `short_blob` declares address length 5 and payload
length 200 and has 6 bytes instead of 211.  `work` does not fail: it removes the request,
stores the preamble `0x55` in the target buffer (channel 2) and zeros in the buffer of
channel 0, both `0xFF` before; and the byte it renders at offset 1 of the target buffer, the
first address byte, is the byte that follows the storage of the blob (`0x11`, `0x91`). -/
theorem work_reads_past_short_blob :
    short_blob.length = 6 ∧
      (nordic_tx_impl.work Endian.little zero_mem
        { m_channel_count := 4, m_tx_queue := [short_blob] } 4096 sample_outputs).self.m_tx_queue
        = [] ∧
      (nordic_tx_impl.work Endian.little zero_mem
        { m_channel_count := 4, m_tx_queue := [short_blob] } 4096 sample_outputs).output_items
        2 0 = 0x55 ∧
      (nordic_tx_impl.work Endian.little zero_mem
        { m_channel_count := 4, m_tx_queue := [short_blob] } 4096 sample_outputs).output_items
        0 0 = 0 ∧
      (nordic_tx_impl.work Endian.little (poke zero_mem Site.blob_end 0 0x11)
        { m_channel_count := 4, m_tx_queue := [short_blob] } 4096 sample_outputs).output_items
        2 1 = 0x11 ∧
      (nordic_tx_impl.work Endian.little (poke zero_mem Site.blob_end 0 0x91)
        { m_channel_count := 4, m_tx_queue := [short_blob] } 4096 sample_outputs).output_items
        2 1 = 0x91 := by
  decide!

/-- C15 fails on the code.  For address length 1, payload length 0 and CRC length 2 the
constructor allocates 4 bytes and its CRC loop reads offsets 1 to 6: the CRC byte it stores
at offset 2 changes (from `0xD2` to `0x90`) when only the byte at offset 6, past the end of
the block, changes. -/
theorem ctor_reads_past_block :
    shockburst_packet.allocated 1 0 2 = 4 ∧
      shockburst_packet.accesses 1 0 = [0, 1, 1, 2, 3, 4, 5, 6, 6, 2, 3] ∧
      ¬ (∀ o ∈ shockburst_packet.accesses 1 0, o < shockburst_packet.allocated 1 0 2) ∧
      (shockburst_packet.ctor Endian.little zero_mem 1 0 2 sample_address sample_payload).bytes 2
        = 0xD2 ∧
      (shockburst_packet.ctor Endian.little (poke zero_mem Site.m_packet_bytes 6 1) 1 0 2
        sample_address sample_payload).bytes 2 = 0x90 := by
  decide!

/-- The packet length is kept in 8 bits: `bytes_length()` is
`(1 + crc_length + address_length + payload_length) mod 256`; so when that sum, the number of
bytes assembled, is 256 or more, the length `L` reported by the packet is smaller than it,
and so is the number of bytes the output loop of the render step copies: it stores the packet
bytes `[0, L)` at offsets `[0, L)` and `[2L, 3L)` of the target buffer and nothing else. -/
theorem bytes_length_eight_bits (host : Endian) (ind : Indet) (alen plen clen : Nat)
    (address payload : Ptr) :
    (shockburst_packet.ctor host ind alen plen clen address payload).bytes_length =
        shockburst_packet.allocated alen plen clen % 256 ∧
      (256 ≤ shockburst_packet.allocated alen plen clen →
        (shockburst_packet.ctor host ind alen plen clen address payload).bytes_length <
          shockburst_packet.allocated alen plen clen) ∧
      (∀ (out : Ptr) (i : Nat),
        nordic_tx_impl.write_output (shockburst_packet.ctor host ind alen plen clen address payload)
            out i =
          if i < (shockburst_packet.ctor host ind alen plen clen address payload).bytes_length then
            (shockburst_packet.ctor host ind alen plen clen address payload).bytes i
          else if (shockburst_packet.ctor host ind alen plen clen address payload).bytes_length * 2
                ≤ i ∧
              i < (shockburst_packet.ctor host ind alen plen clen address payload).bytes_length * 3
            then
            (shockburst_packet.ctor host ind alen plen clen address payload).bytes
              (i - (shockburst_packet.ctor host ind alen plen clen address payload).bytes_length * 2)
          else out i) := by
  refine ⟨rfl, ?_, fun out i => nordic_tx_impl.write_output_apply _ out i⟩
  intro h
  rw [shockburst_packet.ctor_bytes_length]
  unfold shockburst_packet.allocated at h ⊢
  omega

/-- C19 fails on the code, in the value returned.  For the request `long_blob` 258 bytes are
assembled and `bytes_length()` is `L = 2`, as the claim says; but `work` returns 400, which
is neither `2L = 4` nor smaller than 258, when the storage of the deleted packet holds
200. -/
theorem work_return_not_below_assembled :
    shockburst_packet.allocated 5 250 2 = 258 ∧
      (nordic_tx_impl.build_packet Endian.little (poke zero_mem Site.deleted_packet 0 200)
        (nordic_tx_impl.blob_ptr (poke zero_mem Site.deleted_packet 0 200)
          long_blob)).bytes_length = 2 ∧
      (nordic_tx_impl.work Endian.little (poke zero_mem Site.deleted_packet 0 200)
        { m_channel_count := 4, m_tx_queue := [long_blob] } 4096 sample_outputs).ret = 400 ∧
      ¬ ((nordic_tx_impl.work Endian.little (poke zero_mem Site.deleted_packet 0 200)
        { m_channel_count := 4, m_tx_queue := [long_blob] } 4096 sample_outputs).ret < 258) := by
  decide!

/-! ## Linearity of the CRC -/

/-- Reduction modulo a power of two goes through `^^^`. -/
theorem xor_mod_two_pow (a b k : Nat) : (a ^^^ b) % 2 ^ k = (a % 2 ^ k) ^^^ (b % 2 ^ k) := by
  apply Nat.eq_of_testBit_eq
  intro i
  simp only [Nat.testBit_mod_two_pow, Nat.testBit_xor]
  cases decide (i < k) <;> simp

/-- Four-term exchange for `^^^`. -/
theorem xor_xor_xor_comm (a b c d : Nat) : (a ^^^ b) ^^^ (c ^^^ d) = (a ^^^ c) ^^^ (b ^^^ d) := by
  rw [Nat.xor_assoc, Nat.xor_assoc, ← Nat.xor_assoc b c d, Nat.xor_comm b c, Nat.xor_assoc c b d]

/-- The long division is additive in the dividend. -/
theorem gf2_mod_xor (g dg : Nat) :
    ∀ (n a b : Nat), gf2_mod g dg n (a ^^^ b) = gf2_mod g dg n a ^^^ gf2_mod g dg n b
  | 0, _, _ => rfl
  | n + 1, a, b => by
    rw [gf2_mod_succ, gf2_mod_succ, gf2_mod_succ, Nat.testBit_xor, ← gf2_mod_xor g dg n]
    congr 1
    cases a.testBit (dg + n) <;> cases b.testBit (dg + n)
    · rfl
    · simp only [Bool.false_xor, if_true, Bool.false_eq_true, if_false]
      rw [Nat.xor_assoc]
    · simp only [Bool.xor_false, if_true, Bool.false_eq_true, if_false]
      rw [Nat.xor_assoc, Nat.xor_comm b, ← Nat.xor_assoc]
    · simp only [Bool.xor_self, if_true, Bool.false_eq_true, if_false]
      rw [xor_xor_xor_comm, Nat.xor_self, Nat.xor_zero]

namespace shockburst_packet

/-- One shift of the register is additive. -/
theorem crc_update_step_xor {a b : Nat} (ha : a < 65536) (hb : b < 65536) :
    crc_update_step (a ^^^ b) = crc_update_step a ^^^ crc_update_step b := by
  have hab : a ^^^ b < 65536 := @Nat.xor_lt_two_pow _ _ 16 ha hb
  rw [crc_update_step_eq_gf2_mod ha, crc_update_step_eq_gf2_mod hb,
    crc_update_step_eq_gf2_mod hab, xor_shiftLeft, gf2_mod_xor]

/-- Any number of shifts of the register is additive. -/
theorem crc_update_step_iterate_xor (n : Nat) :
    ∀ {a b : Nat}, a < 65536 → b < 65536 →
      crc_update_step^[n] (a ^^^ b) = crc_update_step^[n] a ^^^ crc_update_step^[n] b := by
  induction n with
  | zero => intro a b _ _; rfl
  | succ n ih =>
    intro a b ha hb
    rw [Function.iterate_succ_apply, Function.iterate_succ_apply, Function.iterate_succ_apply,
      crc_update_step_xor ha hb, ih (crc_update_step_lt a) (crc_update_step_lt b)]

/-- The function `crc_update` is additive in register and data together. -/
theorem crc_update_xor (c1 c2 d1 d2 n : Nat) :
    crc_update (c1 ^^^ c2) (d1 ^^^ d2) n = crc_update c1 d1 n ^^^ crc_update c2 d2 n := by
  have e8 : (256 : Nat) = 2 ^ 8 := by norm_num
  have e16 : (65536 : Nat) = 2 ^ 16 := by norm_num
  have h : ((c1 ^^^ c2) ^^^ (((d1 ^^^ d2) % 256) <<< 8)) % 65536 =
      ((c1 ^^^ ((d1 % 256) <<< 8)) % 65536) ^^^ ((c2 ^^^ ((d2 % 256) <<< 8)) % 65536) := by
    rw [e8, e16, xor_mod_two_pow d1 d2 8, xor_shiftLeft, xor_xor_xor_comm, xor_mod_two_pow]
  unfold crc_update
  rw [h]
  exact crc_update_step_iterate_xor n (Nat.mod_lt _ (by decide)) (Nat.mod_lt _ (by decide))

end shockburst_packet

/-- C17: `crc_update` is linear over XOR: for all registers `c1`, `c2`, all data `d1`, `d2`
and every bit count `n`, `crc_update(c1 ^ c2, d1 ^ d2, n)` is
`crc_update(c1, d1, n) ^ crc_update(c2, d2, n)`; and `crc_update(0, 0, n)` is 0. -/
theorem crc_update_linear (c1 c2 d1 d2 n : Nat) :
    shockburst_packet.crc_update (c1 ^^^ c2) (d1 ^^^ d2) n =
        shockburst_packet.crc_update c1 d1 n ^^^ shockburst_packet.crc_update c2 d2 n ∧
      shockburst_packet.crc_update 0 0 n = 0 := by
  refine ⟨shockburst_packet.crc_update_xor c1 c2 d1 d2 n, ?_⟩
  have h := shockburst_packet.crc_update_xor 0 0 0 0 n
  rw [Nat.xor_self, Nat.xor_self] at h
  exact h

/-! ## Byte-wide and bit-serial update -/

namespace shockburst_packet

/-- A one-bit update puts the bit at the top of the register and shifts once. -/
theorem crc_update_one_bit {c β : Nat} (hc : c < 65536) (hβ : β < 2) :
    crc_update c (β <<< 7) 1 = crc_update_step (c ^^^ (β <<< 15)) := by
  have h7 : β <<< 7 < 256 := by rw [Nat.shiftLeft_eq]; omega
  have h15 : β <<< 15 < 2 ^ 16 := by rw [Nat.shiftLeft_eq]; omega
  have e : (β <<< 7) <<< 8 = β <<< 15 := by rw [← Nat.shiftLeft_add]
  unfold crc_update
  rw [Nat.mod_eq_of_lt h7, e, Nat.mod_eq_of_lt (@Nat.xor_lt_two_pow _ _ 16 hc h15)]
  rfl

/-- A register with bit 15 clear is just shifted. -/
theorem crc_update_step_of_lt {z : Nat} (hz : z < 2 ^ 15) : crc_update_step z = z <<< 1 := by
  have h15 : ¬ (z &&& 0x8000 ≠ 0) := by
    rw [and_0x8000, Nat.testBit_lt_two_pow hz]
    decide
  have hlt : z <<< 1 < 65536 := by rw [Nat.shiftLeft_eq]; omega
  unfold crc_update_step
  rw [if_neg h15, Nat.mod_eq_of_lt hlt]

/-- The top bit of a `k+1`-bit number, and the rest. -/
theorem split_top_bit {x k : Nat} (hx : x < 2 ^ (k + 1)) :
    x = (((x >>> k) &&& 1) <<< k) ^^^ (x % 2 ^ k) := by
  apply Nat.eq_of_testBit_eq
  intro i
  have e1 : (1 : Nat) = 2 ^ 1 - 1 := by norm_num
  rw [Nat.testBit_xor, Nat.testBit_shiftLeft, Nat.testBit_mod_two_pow]
  have hand : ∀ j, ((x >>> k) &&& 1).testBit j = (decide (j = 0) && x.testBit (k + j)) := by
    intro j
    rw [Nat.testBit_and, Nat.testBit_shiftRight]
    cases j with
    | zero => simp
    | succ j =>
      have : (1 : Nat).testBit (j + 1) = false :=
        testBit_false_of_lt (show (1 : Nat) < 2 ^ 1 by decide) (by omega)
      simp [this]
  rw [hand]
  rcases Nat.lt_trichotomy i k with h | h | h
  · have h1 : ¬ i ≥ k := by omega
    simp [h, h1]
  · subst h
    simp
  · have h1 : i ≥ k := by omega
    have h2 : ¬ i < k := by omega
    have h3 : ¬ i - k = 0 := by omega
    have h4 : x.testBit i = false := testBit_false_of_lt hx (by omega)
    simp [h1, h2, h3, h4]

/-- The bits below `k` of a number are those of its remainder modulo `2^k`. -/
theorem bit_of_mod_two_pow (x : Nat) {k i : Nat} (hi : i < k) :
    ((x % 2 ^ k) >>> i) &&& 1 = (x >>> i) &&& 1 := by
  apply Nat.eq_of_testBit_eq
  intro j
  rw [Nat.testBit_and, Nat.testBit_and, Nat.testBit_shiftRight, Nat.testBit_shiftRight,
    Nat.testBit_mod_two_pow]
  cases j with
  | zero => simp [hi]
  | succ j =>
    have : (1 : Nat).testBit (j + 1) = false :=
      testBit_false_of_lt (show (1 : Nat) < 2 ^ 1 by decide) (by omega)
    simp [this]

/-- The bit-serial update over the bits `i` of a list depends only on those bits. -/
theorem bits_foldl_congr (x y : Nat) (l : List Nat) (c : Nat)
    (h : ∀ i ∈ l, (x >>> i) &&& 1 = (y >>> i) &&& 1) :
    l.foldl (fun c i => crc_update c (((x >>> i) &&& 1) <<< 7) 1) c =
      l.foldl (fun c i => crc_update c (((y >>> i) &&& 1) <<< 7) 1) c := by
  induction l generalizing c with
  | nil => simp only [List.foldl_nil]
  | cons i l ih =>
    have hi := h i (List.mem_cons_self i l)
    have hl : ∀ j ∈ l, (x >>> j) &&& 1 = (y >>> j) &&& 1 :=
      fun j hj => h j (List.mem_cons_of_mem i hj)
    simp only [List.foldl_cons, hi]
    exact ih _ hl

/-- Shifting the register `k+1` times over a `k+1`-bit number placed at its top is `k+1`
one-bit updates, most significant bit first. -/
theorem crc_update_step_iterate_eq_bits :
    ∀ (k s : Nat), s + k = 15 → ∀ (c x : Nat), c < 65536 → x < 2 ^ (k + 1) →
      crc_update_step^[k + 1] (c ^^^ (x <<< s)) =
        (List.range (k + 1)).reverse.foldl
          (fun c i => crc_update c (((x >>> i) &&& 1) <<< 7) 1) c := by
  intro k
  induction k with
  | zero =>
    intro s hs c x hc hx
    have hs' : s = 15 := by omega
    subst hs'
    have hx1 : x &&& 1 = x := by
      have h1 : x < 2 := by simpa using hx
      interval_cases x <;> rfl
    have hr : (List.range (0 + 1)).reverse = [0] := by decide
    rw [hr]
    simp only [Nat.zero_add, Function.iterate_one, List.foldl_cons, List.foldl_nil,
      Nat.shiftRight_zero, hx1]
    rw [crc_update_one_bit hc (by simpa using hx)]
  | succ k ih =>
    intro s hs c x hc hx
    have hβ : (x >>> (k + 1)) &&& 1 < 2 := by
      have := @Nat.and_lt_two_pow (x >>> (k + 1)) 1 1 (by decide)
      simpa using this
    have hx' : x % 2 ^ (k + 1) < 2 ^ (k + 1) := Nat.mod_lt _ (Nat.two_pow_pos _)
    have hsplit := split_top_bit hx
    have hz : (x % 2 ^ (k + 1)) <<< s < 2 ^ 15 := by
      have := shiftLeft_lt_two_pow s hx'
      have e : k + 1 + s = 15 := by omega
      rwa [e] at this
    have htop : (((x >>> (k + 1)) &&& 1) <<< (k + 1)) <<< s = ((x >>> (k + 1)) &&& 1) <<< 15 := by
      rw [← Nat.shiftLeft_add]
      congr 1
      omega
    have h15 : ((x >>> (k + 1)) &&& 1) <<< 15 < 2 ^ 16 := by
      rw [Nat.shiftLeft_eq]; omega
    have hstep : crc_update_step (c ^^^ (x <<< s)) =
        crc_update c (((x >>> (k + 1)) &&& 1) <<< 7) 1 ^^^ ((x % 2 ^ (k + 1)) <<< (s + 1)) := by
      conv => lhs; rw [hsplit]
      rw [xor_shiftLeft, htop, ← Nat.xor_assoc,
        crc_update_step_xor (@Nat.xor_lt_two_pow _ _ 16 hc h15)
          (Nat.lt_of_lt_of_le hz (by norm_num)),
        crc_update_step_of_lt hz, ← crc_update_one_bit hc hβ, ← Nat.shiftLeft_add]
    rw [Function.iterate_succ_apply, hstep,
      ih (s + 1) (by omega) _ _ (crc_update_lt _ _ _) hx', List.range_succ (k + 1),
      List.reverse_append, List.reverse_singleton, List.singleton_append, List.foldl_cons]
    apply bits_foldl_congr
    intro i hi
    have : i < k + 1 := by
      have := List.mem_reverse.mp hi
      exact List.mem_range.mp this
    exact bit_of_mod_two_pow x this

end shockburst_packet

/-- C18: for every 16-bit `crc` and every byte `data`, `crc_update(crc, data, 8)` is the
result of the eight one-bit updates `crc := crc_update(crc, b_i << 7, 1)` over the bits
`b_7, b_6, ..., b_0` of `data`, most significant bit first. -/
theorem crc_update_byte_eq_bits (crc data : Nat) (hc : crc < 65536) (hd : data < 256) :
    shockburst_packet.crc_update crc data 8 =
      [7, 6, 5, 4, 3, 2, 1, 0].foldl
        (fun c i => shockburst_packet.crc_update c (((data >>> i) &&& 1) <<< 7) 1) crc := by
  have h8 : data <<< 8 < 2 ^ 16 := shiftLeft_lt_two_pow 8 (show data < 2 ^ 8 by omega)
  have hl : [7, 6, 5, 4, 3, 2, 1, 0] = (List.range (7 + 1)).reverse := by decide
  rw [hl, ← shockburst_packet.crc_update_step_iterate_eq_bits 7 8 (by decide) crc data hc
    (by omega)]
  unfold shockburst_packet.crc_update
  rw [Nat.mod_eq_of_lt hd, Nat.mod_eq_of_lt (@Nat.xor_lt_two_pow _ _ 16 hc h8)]

/-- C18 at `crc = 0xFFFF` and `data = 0x31`: both ways give `0xC782`. -/
theorem crc_update_byte_eq_bits_witness :
    (0xFFFF < 65536 ∧ 0x31 < 256) ∧
      shockburst_packet.crc_update 0xFFFF 0x31 8 = 0xC782 ∧
      [7, 6, 5, 4, 3, 2, 1, 0].foldl
          (fun c i => shockburst_packet.crc_update c (((0x31 >>> i) &&& 1) <<< 7) 1) 0xFFFF =
        0xC782 :=
  ⟨⟨by decide, by decide⟩, by decide!,
    (crc_update_byte_eq_bits 0xFFFF 0x31 (by decide) (by decide)).symm.trans (by decide!)⟩
